import Mathlib

/-!
Shallow embedding of `src/analyz/ty_json.rs` (mir-json): the lowering of
rustc types, instances and constants into a flat JSON IR, together with the
type-interning table, the reachability ("used") sets, stable-name mangling,
vtable-slot renumbering and constant rendering.

Rustc itself (type contexts, instance resolution, const evaluation, stable
hashing, vtable method tables) is a collaborator oracle; it is modelled as a
`TyCtxt` structure of oracle functions.  Regions/lifetimes are erased
throughout, matching the code, which hashes and interns only region-erased,
normalized data.  Rust panics (`panic!`, `assert!`, `unwrap`, `expect`) are
modelled by the `Except` error monad.
-/

/-- A reference to a definition in the host program (rustc `DefId`):
an owning-crate identity plus an index within it.  The textual pieces
(crate name, disambiguator, path) are produced by `TyCtxt` oracles. -/
structure DefId where
  krate : Nat
  index : Nat
deriving DecidableEq

/-- Modelled from the spec: `ast::IntTy` with its `Debug`-style name used by
`basic_json_enum_impl` (that macro lives outside this file's source). -/
inductive IntTy where
  | isize | i8 | i16 | i32 | i64 | i128
deriving DecidableEq

/-- Modelled from the spec: `ast::UintTy`, as for `IntTy`. -/
inductive UintTy where
  | usize | u8 | u16 | u32 | u64 | u128
deriving DecidableEq

/-- Modelled from the spec: `ast::FloatTy`. -/
inductive FloatTy where
  | f32 | f64
deriving DecidableEq

/-- `hir::Mutability`. -/
inductive Mutability where
  | not | mut
deriving DecidableEq

/-- `abi::Abi`, rendered by `basic_json_enum_impl` as its variant name;
modelled as that name. -/
structure Abi where
  name : String
deriving DecidableEq

/-- The JSON value tree produced by the lowering (`serde_json::Value`). -/
inductive Json where
  | null
  | bool (b : Bool)
  | num (n : Nat)
  | str (s : String)
  | arr (xs : List Json)
  | obj (fields : List (String × Json))

/-- `mir::interpret::Allocation`: raw bytes plus the offsets that carry
pointer relocations. -/
structure Allocation where
  bytes : List Nat
  relocations : List Nat
deriving DecidableEq

/-- An algebraic-data-type definition; the lowering in scope only consults
its `did` field. -/
structure AdtDef where
  did : DefId
deriving DecidableEq

mutual
/-- `ty::TyKind` (region-erased): the structural type tree that the
interner keys on.  Constructor order follows the `match` in
`impl ToJson for ty::Ty`. -/
inductive Ty where
  | bool
  | char
  | int (t : IntTy)
  | uint (t : UintTy)
  | tuple (tys : TyList)
  | slice (t : Ty)
  | str
  | float (t : FloatTy)
  | array (t : Ty) (size : Const)
  | ref (t : Ty) (m : Mutability)
  | rawPtr (t : Ty) (m : Mutability)
  | adt (adtDef : AdtDef) (substs : Substs)
  | fnDef (defId : DefId) (substs : Substs)
  | param (index : Nat)
  | closure (defId : DefId) (substs : Substs)
  | dynamic (preds : ExPreds)
  | projection (itemDefId : DefId) (substs : Substs)
  | unnormalizedProjection (itemDefId : DefId) (substs : Substs)
  | fnPtr (sig : FnSig)
  | never
  | error
  | infer
  | bound
  | placeholder
  | foreign
  | generator
  | generatorWitness
  | opaqueTy
/-- `ty::List<Ty>`. -/
inductive TyList where
  | nil
  | cons (t : Ty) (ts : TyList)
/-- `ty::subst::SubstsRef`: a list of generic arguments. -/
inductive Substs where
  | nil
  | cons (a : GenericArg) (s : Substs)
/-- `ty::subst::GenericArg` (unpacked kinds). -/
inductive GenericArg where
  | type (t : Ty)
  | lifetime
  | const
/-- `ty::FnSig` with late-bound regions erased (the code erases them via
`erase_late_bound_regions` before lowering, so the binder is not modelled). -/
inductive FnSig where
  | mk (inputs : TyList) (output : Ty) (abi : Abi)
/-- `ty::List<ExistentialPredicate>`. -/
inductive ExPreds where
  | nil
  | cons (p : ExPred) (ps : ExPreds)
/-- `ty::ExistentialPredicate`. -/
inductive ExPred where
  | trait (defId : DefId) (substs : Substs)
  | projection (itemDefId : DefId) (substs : Substs) (rhsTy : Ty)
  | autoTrait (defId : DefId)
/-- `ty::Const`: a type together with a constant kind. -/
inductive Const where
  | mk (ty : Ty) (val : ConstKind)
/-- `ty::ConstKind`: the cases distinguished by `impl ToJson for ty::Const`;
every kind other than `Unevaluated` and `Value` hits the panicking arm and
is collapsed into `other`. -/
inductive ConstKind where
  | unevaluated (defId : DefId) (substs : Substs) (promoted : Option Nat)
  | value (v : ConstValue)
  | other
/-- `mir::interpret::ConstValue`: the cases distinguished by
`impl ToJson for ty::Const`; `byRef` stands for every remaining variant,
which that code sends to `None`. -/
inductive ConstValue where
  | scalarRaw (size : Nat) (data : Nat)
  | scalarPtr (allocId : Nat) (offset : Nat)
  | slice (data : Allocation) (start : Nat) (stop : Nat)
  | byRef
end

deriving instance DecidableEq for Ty, TyList, Substs, GenericArg, FnSig,
  ExPreds, ExPred, Const, ConstKind, ConstValue

/-- `Substs.len()`. -/
def Substs.length : Substs → Nat
  | .nil => 0
  | .cons _ s => 1 + s.length

/-- `ty::InstanceDef`: the instance kinds matched by `inst_id_str` and
`inst_def_id`. -/
inductive InstanceDef where
  | item (defId : DefId)
  | intrinsic (defId : DefId)
  | vtableShim (defId : DefId)
  | reifyShim (defId : DefId)
  | virtual (defId : DefId) (index : Nat)
  | fnPtrShim (defId : DefId) (ty : Ty)
  | closureOnceShim (callOnce : DefId)
  | dropGlue (defId : DefId) (ty : Option Ty)
  | cloneShim (defId : DefId) (ty : Ty)
deriving DecidableEq

/-- `ty::Instance`: an instance definition plus its substitutions. -/
structure Instance where
  idef : InstanceDef
  substs : Substs
deriving DecidableEq

/-- `TraitInst` (defined in `to_json.rs`, outside this file's source).
Modelled from the spec: a canonicalized existential predicate set is either
"no trait" or a principal trait `DefId` together with its canonical `dyn`
type; the documented invariant "`dyn_ty` should only return `None` when
`self.trait_ref` is `None`" is built into the representation. -/
structure TraitInst where
  data : Option (DefId × Ty)
deriving DecidableEq

/-- `ty::TraitRef` / `ty::ExistentialTraitRef`: a trait `DefId` plus
substitutions (for the existential form, without the self type). -/
structure TraitRefData where
  defId : DefId
  substs : Substs
deriving DecidableEq

/-- `interpret::GlobalAlloc`: what `tcx.alloc_map` knows about an
allocation id; only the `Static` case is distinguished by the code. -/
inductive GlobalAlloc where
  | staticAlloc (defId : DefId)
  | otherAlloc
deriving DecidableEq

/-- The payloads fed to the stable hasher by `ext_def_id_str`
(`T: HashStable`): either a substitution list or a `dyn` type. -/
inductive HashInput where
  | substs (s : Substs)
  | dynTy (t : Ty)
deriving DecidableEq

/-- The rustc collaborator oracles consumed by the lowering: name pieces,
the 64-bit stable hash, normalization/erasure, instance resolution,
constant evaluation, vtable method tables, trait-object canonicalization,
float rendering and the global allocation map.  Each field models one
external rustc API used by the source. -/
structure TyCtxt where
  crateName : DefId → String
  crateDisambiguator : DefId → String
  defPathStr : DefId → String
  stableHash : HashInput → Nat
  normalizeSubsts : Substs → Substs
  eraseRegions : Substs → Substs
  hasErasableRegions : Substs → Bool
  needsSubst : Substs → Bool
  resolve : DefId → Substs → Option Instance
  constEvalValidated : Instance → Option Nat → Option ConstValue
  vtableMethods : TraitRefData → List (Option DefId)
  fromDynamicPredicates : ExPreds → TraitInst
  f32ToString : Nat → String
  f64ToString : Nat → String
  getGlobalAlloc : Nat → Option GlobalAlloc

/-- `(AdtDef, SubstsRef)` pair (`AdtInst` in `to_json.rs`); equality is
structural over both fields. -/
structure AdtInst where
  adt : AdtDef
  substs : Substs
deriving DecidableEq

/-- `AdtInst::def_id`. -/
def AdtInst.def_id (ai : AdtInst) : DefId := ai.adt.did

/-- The three append-only reachability sets populated during lowering. -/
structure UsedSets where
  instances : List Instance
  traits : List TraitInst
  types : List AdtInst

/-- Find the interning ID of `t`, scanning entries in insertion order
starting at index `k`. -/
def lookupIdx (t : Ty) : List (Ty × Json) → Nat → Option Nat
  | [], _ => none
  | p :: ps, k => if p.1 = t then some k else lookupIdx t ps (k + 1)

/-- The type-interning table (`mir.tys`, defined in `to_json.rs`, outside
this file's source).  Modelled from the spec: an insertion-ordered mapping
from structural type keys to sequential integer IDs; the ID of an entry is
its position in `entries`. -/
structure TyIntern where
  entries : List (Ty × Json)

/-- Look a type up by structural equality, returning its ID if present. -/
def TyIntern.get (tbl : TyIntern) (t : Ty) : Option Nat :=
  lookupIdx t tbl.entries 0

/-- Store a lowered body under the next sequential ID and return that ID. -/
def TyIntern.insert (tbl : TyIntern) (t : Ty) (j : Json) : Nat × TyIntern :=
  (tbl.entries.length, ⟨tbl.entries ++ [(t, j)]⟩)

/-- The mutable lowering state threaded through every `to_json` call:
the type context, the interning table, the used sets, and the diagnostics
emitted so far (`eprintln!`). -/
structure MirState where
  tcx : TyCtxt
  tys : TyIntern
  used : UsedSets
  diags : List String

/-- Rust panics are modelled as `Except` errors carrying the message. -/
abbrev Panic := String

/-- `HashSet::insert`: add an element unless it is already present. -/
def insertOnce {α : Type} [DecidableEq α] (x : α) (xs : List α) : List α :=
  if x ∈ xs then xs else x :: xs

/-- One lowercase hex digit. -/
def hexDigit (n : Nat) : Char :=
  if n < 10 then Char.ofNat (48 + n) else Char.ofNat (87 + n % 16)

/-- `{:016x}` of a `u64` value: sixteen lowercase hex digits. -/
def hex16 (h : Nat) : String :=
  String.mk ((List.range 16).map fun i => hexDigit (h / 16 ^ (15 - i) % 16))

/-- `def_id_str`: `<crate-name>/<first 8 chars of disambiguator><def-path>`. -/
def def_id_str (tcx : TyCtxt) (def_id : DefId) : String :=
  let crate_name := tcx.crateName def_id
  let disambig := tcx.crateDisambiguator def_id
  let defpath := tcx.defPathStr def_id
  crate_name ++ "/" ++ disambig.take 8 ++ defpath

/-- `ext_def_id_str`: the base name extended with `::<tag><16-hex-digit
stable hash>[0]`, the hash being the 64-bit stable hash of `extra`. -/
def ext_def_id_str (tcx : TyCtxt) (def_id : DefId) (tag : String)
    (extra : HashInput) : String :=
  let base := def_id_str tcx def_id
  let hash := tcx.stableHash extra % 2 ^ 64
  base ++ "::" ++ tag ++ hex16 hash ++ "[0]"

/-- `adt_inst_id_str`: erase early-bound regions from the substitutions and
hash them under the `_adt` tag. -/
def adt_inst_id_str (tcx : TyCtxt) (ai : AdtInst) : String :=
  let substs := tcx.eraseRegions ai.substs
  ext_def_id_str tcx ai.def_id "_adt" (.substs substs)

/-- `inst_id_str`: normalize the substitutions, check the two asserts, and
mangle according to the instance kind; `Item`/`Intrinsic` with no
substitutions reuse the bare definition name. -/
def inst_id_str (tcx : TyCtxt) (inst : Instance) : Except Panic String :=
  let substs := tcx.normalizeSubsts inst.substs
  if tcx.hasErasableRegions substs then
    .error "assertion failed: !substs.has_erasable_regions()"
  else if tcx.needsSubst substs then
    .error "assertion failed: !substs.needs_subst()"
  else .ok <|
    match inst.idef with
    | .item defId | .intrinsic defId =>
      if substs.length = 0 then
        def_id_str tcx defId
      else
        ext_def_id_str tcx defId "_inst" (.substs substs)
    | .vtableShim defId => ext_def_id_str tcx defId "_vtshim" (.substs substs)
    | .reifyShim defId => ext_def_id_str tcx defId "_reify" (.substs substs)
    | .virtual defId idx =>
      ext_def_id_str tcx defId ("_virt" ++ toString idx ++ "_") (.substs substs)
    | .dropGlue defId _ => ext_def_id_str tcx defId "_drop" (.substs substs)
    | .fnPtrShim defId _ | .closureOnceShim defId =>
      ext_def_id_str tcx defId "_callonce" (.substs substs)
    | .cloneShim defId _ => ext_def_id_str tcx defId "_shim" (.substs substs)

/-- `trait_inst_id_str`: hash the canonical `dyn` type under the `_trait`
tag, or the fixed sentinel name when there is no principal trait. -/
def trait_inst_id_str (tcx : TyCtxt) (ti : TraitInst) : String :=
  match ti.data with
  | some (did, dynTy) => ext_def_id_str tcx did "_trait" (.dynTy dynTy)
  | none => "trait/0::empty[0]"

/-- `inst_def_id`: the underlying `DefId` of any instance kind. -/
def inst_def_id (inst : Instance) : DefId :=
  match inst.idef with
  | .item d | .intrinsic d | .vtableShim d | .reifyShim d | .virtual d _
  | .fnPtrShim d _ | .closureOnceShim d | .dropGlue d _ | .cloneShim d _ => d

/-- `get_fn_def_name`: resolve the call target; on success record the
instance in the reachable set and return its mangled name, on failure emit
a diagnostic and fall back to the bare definition name. -/
def get_fn_def_name (mir : MirState) (defid : DefId) (substs : Substs) :
    Except Panic (String × MirState) :=
  let inst := mir.tcx.resolve defid substs
  match inst with
  | some inst =>
    let mir₁ :=
      { mir with used := { mir.used with
          instances := insertOnce inst mir.used.instances } }
    match inst_id_str mir.tcx inst with
    | .error e => .error e
    | .ok s => .ok (s, mir₁)
  | none =>
    .ok (def_id_str mir.tcx defid,
      { mir with diags := mir.diags ++
          ["error: failed to resolve FnDef Instance: " ++
            mir.tcx.defPathStr defid] })

/-- `get_promoted_name`: the parent name, plus a `::{{promoted}}[i]` suffix
when a promoted index is present. -/
def get_promoted_name (mir : MirState) (defid : DefId) (substs : Substs)
    (promoted : Option Nat) : Except Panic (String × MirState) :=
  match get_fn_def_name mir defid substs with
  | .error e => .error e
  | .ok (parent, mir₁) =>
    match promoted with
    | some x =>
      .ok (parent ++ "::\x7b\x7bpromoted\x7d\x7d[" ++ toString x ++ "]", mir₁)
    | none => .ok (parent, mir₁)

/-- `ExistentialPredicates::principal()`: the first predicate, if it is a
trait predicate. -/
def ExPreds.principal : ExPreds → Option TraitRefData
  | .cons (.trait d s) _ => some ⟨d, s⟩
  | _ => none

/-- `ExistentialTraitRef::with_self_ty`: prepend the self type to the
substitutions to form a full trait reference. -/
def TraitRefData.withSelfTy (tr : TraitRefData) (selfTy : Ty) : TraitRefData :=
  ⟨tr.defId, .cons (.type selfTy) tr.substs⟩

/-- `adjust_method_index`: count the present (`Some`) methods among the
first `raw_idx` entries of the trait object's vtable method list; panics
when the self type is not a `dyn` type with a principal trait. -/
def adjust_method_index (tcx : TyCtxt) (self_ty : Ty) (raw_idx : Nat) :
    Except Panic Nat :=
  match self_ty with
  | .dynamic preds =>
    match preds.principal with
    | some ex_tref =>
      let tref := ex_tref.withSelfTy self_ty
      let methods := tcx.vtableMethods tref
      .ok ((methods.take raw_idx).countP (fun m => m.isSome))
    | none => .error "panic: no principal trait"
  | _ => .error "panic: expected dyn self type"

/-- `do_const_eval`: resolve the instance and run the constant evaluator,
unwrapping both results (a failure of either oracle panics). -/
def do_const_eval (tcx : TyCtxt) (def_id : DefId) (substs : Substs)
    (promoted : Option Nat) : Except Panic ConstValue :=
  match tcx.resolve def_id substs with
  | none => .error "panic: called Option::unwrap on a None value"
  | some inst =>
    match tcx.constEvalValidated inst promoted with
    | none => .error "panic: called Result::unwrap on an Err value"
    | some v => .ok v

/-- `read_static_memory`: assert the backing allocation has no pointer
relocations at all, then return the requested byte range. -/
def read_static_memory (alloc : Allocation) (start stop : Nat) :
    Except Panic (List Nat) :=
  if alloc.relocations.length = 0 then
    .ok ((alloc.bytes.drop start).take (stop - start))
  else
    .error "assertion failed: alloc.relocations().len() == 0"

/-- Reinterpret a 128-bit pattern as a signed `i128` value. -/
def i128OfBits (p : Nat) : Int :=
  let q : Nat := p % 2 ^ 128
  if q < 2 ^ 127 then (q : Int) else (q : Int) - 2 ^ 128

/-- `IntTy`, rendered as its `Debug` name (per `basic_json_enum_impl`). -/
def IntTy.name : IntTy → String
  | .isize => "Isize" | .i8 => "I8" | .i16 => "I16"
  | .i32 => "I32" | .i64 => "I64" | .i128 => "I128"

/-- `UintTy`, rendered as its `Debug` name. -/
def UintTy.name : UintTy → String
  | .usize => "Usize" | .u8 => "U8" | .u16 => "U16"
  | .u32 => "U32" | .u64 => "U64" | .u128 => "U128"

/-- `FloatTy`, rendered as its `Debug` name. -/
def FloatTy.name : FloatTy → String
  | .f32 => "F32" | .f64 => "F64"

/-- `Mutability`, rendered as its `Debug` name. -/
def Mutability.name : Mutability → String
  | .not => "Not" | .mut => "Mut"

/-- `render_constant`: turn an evaluated scalar/slice constant of the given
type into a tagged literal, `none` meaning "no renderable literal form".
Machine integers are raw bit patterns (`u128`), kept as `Nat` with explicit
`% 2 ^ 128`; the signed branch mirrors `val |= -1i128 << (size * 8)` on the
bit pattern and renders the `i128` reinterpretation. -/
def render_constant (mir : MirState) (ty : Ty) (scalar : Option (Nat × Nat))
    (slice : Option (Allocation × Nat × Nat)) :
    Except Panic (Option Json × MirState) :=
  match ty with
  | .int it =>
    match scalar with
    | none => .error "int const had non-scalar value?"
    | some (size, bits) =>
      let bits := bits % 2 ^ 128
      let val :=
        if bits &&& (1 <<< (size * 8 - 1)) ≠ 0 ∧ size < 128 / 8 then
          bits ||| (((2 ^ 128 - 1) <<< (size * 8)) % 2 ^ 128)
        else bits
      .ok (some (.obj [
        ("kind", .str (match it with | .isize => "isize" | _ => "int")),
        ("size", .num size),
        ("val", .str (toString (i128OfBits val)))]), mir)
  | .bool | .char | .uint _ =>
    match scalar with
    | none => .error "uint const had non-scalar value?"
    | some (size, bits) =>
      .ok (some (.obj [
        ("kind", .str (match ty with
          | .bool => "bool"
          | .char => "char"
          | .uint .usize => "usize"
          | _ => "uint")),
        ("size", .num size),
        ("val", .str (toString (bits % 2 ^ 128)))]), mir)
  | .float .f32 =>
    match scalar with
    | none => .error "f32 const had non-scalar value?"
    | some (size, bits) =>
      .ok (some (.obj [("kind", .str "float"), ("size", .num size),
        ("val", .str (mir.tcx.f32ToString (bits % 2 ^ 32)))]), mir)
  | .float .f64 =>
    match scalar with
    | none => .error "f64 const had non-scalar value?"
    | some (size, bits) =>
      .ok (some (.obj [("kind", .str "float"), ("size", .num size),
        ("val", .str (mir.tcx.f64ToString (bits % 2 ^ 64)))]), mir)
  | .ref .str .not =>
    match slice with
    | none => .error "string const had non-slice value"
    | some (alloc, start, stop) =>
      match read_static_memory alloc start stop with
      | .error e => .error e
      | .ok mem =>
        .ok (some (.obj [("kind", .str "str"),
          ("val", .arr (mem.map Json.num))]), mir)
  | .rawPtr _ _ =>
    match scalar with
    | none => .error "raw_ptr const had non-scalar value?"
    | some (_, bits) =>
      .ok (some (.obj [("kind", .str "raw_ptr"),
        ("val", .str (toString (bits % 2 ^ 128)))]), mir)
  | .fnDef defid substs =>
    match get_fn_def_name mir defid substs with
    | .error e => .error e
    | .ok (name, mir₁) =>
      .ok (some (.obj [("kind", .str "fndef"), ("def_id", .str name),
        ("substs", .arr [])]), mir₁)
  | _ =>
    match scalar with
    | some (0, _) => .ok (some (.obj [("kind", .str "zst")]), mir)
    | _ => .ok (none, mir)

mutual
/-- `impl ToJson for ty::Ty`: if the type is already interned return its ID;
otherwise lower the body (recursing into substructure), insert it into the
interning table under the next sequential ID, and return that ID. -/
def Ty.toJson (t : Ty) (mir : MirState) : Except Panic (Json × MirState) :=
  match mir.tys.get t with
  | some id => .ok (.num id, mir)
  | none =>
    match (match t with
      | .bool => .ok (Json.obj [("kind", .str "Bool")], mir)
      | .char => .ok (Json.obj [("kind", .str "Char")], mir)
      | .int it =>
        .ok (Json.obj [("kind", .str "Int"), ("intkind", .str it.name)], mir)
      | .uint ut =>
        .ok (Json.obj [("kind", .str "Uint"), ("uintkind", .str ut.name)], mir)
      | .tuple sl =>
        match tyListToJson sl mir with
        | .error e => .error e
        | .ok (js, mir₂) =>
          .ok (Json.obj [("kind", .str "Tuple"), ("tys", .arr js)], mir₂)
      | .slice f =>
        match Ty.toJson f mir with
        | .error e => .error e
        | .ok (jf, mir₂) =>
          .ok (Json.obj [("kind", .str "Slice"), ("ty", jf)], mir₂)
      | .str => .ok (Json.obj [("kind", .str "Str")], mir)
      | .float sz =>
        .ok (Json.obj [("kind", .str "Float"), ("size", .str sz.name)], mir)
      | .array elemTy size =>
        match Ty.toJson elemTy mir with
        | .error e => .error e
        | .ok (jt, mir₂) =>
          match Const.toJson size mir₂ with
          | .error e => .error e
          | .ok (jsz, mir₃) =>
            .ok (Json.obj [("kind", .str "Array"), ("ty", jt),
              ("size", jsz)], mir₃)
      | .ref pointee mtbl =>
        match Ty.toJson pointee mir with
        | .error e => .error e
        | .ok (jp, mir₂) =>
          .ok (Json.obj [("kind", .str "Ref"), ("ty", jp),
            ("mutability", .str mtbl.name)], mir₂)
      | .rawPtr pointee mtbl =>
        match Ty.toJson pointee mir with
        | .error e => .error e
        | .ok (jp, mir₂) =>
          .ok (Json.obj [("kind", .str "RawPtr"), ("ty", jp),
            ("mutability", .str mtbl.name)], mir₂)
      | .adt adtDef substs =>
        let ai : AdtInst := ⟨adtDef, substs⟩
        let mir₁ := { mir with used := { mir.used with
          types := insertOnce ai mir.used.types } }
        match substsToJson substs mir₁ with
        | .error e => .error e
        | .ok (js, mir₂) =>
          .ok (Json.obj [("kind", .str "Adt"),
            ("name", .str (adt_inst_id_str mir.tcx ai)),
            ("orig_def_id", .str (def_id_str mir.tcx adtDef.did)),
            ("substs", .arr js)], mir₂)
      | .fnDef defId substs =>
        match get_fn_def_name mir defId substs with
        | .error e => .error e
        | .ok (name, mir₁) =>
          .ok (Json.obj [("kind", .str "FnDef"), ("defid", .str name),
            ("substs", .arr [])], mir₁)
      | .param p => .ok (Json.obj [("kind", .str "Param"), ("param", .num p)], mir)
      | .closure defId substs =>
        match substsToJson substs mir with
        | .error e => .error e
        | .ok (js, mir₂) =>
          match upvarTysToJson substs mir₂ with
          | .error e => .error e
          | .ok (ju, mir₃) =>
            .ok (Json.obj [("kind", .str "Closure"),
              ("defid", .str (def_id_str mir.tcx defId)),
              ("closuresubsts", .arr js),
              ("upvar_tys", .arr ju)], mir₃)
      | .dynamic preds =>
        let ti := mir.tcx.fromDynamicPredicates preds
        let trait_name := trait_inst_id_str mir.tcx ti
        let mir₁ := { mir with used := { mir.used with
          traits := insertOnce ti mir.used.traits } }
        match exPredsToJson preds mir₁ with
        | .error e => .error e
        | .ok (jp, mir₂) =>
          .ok (Json.obj [("kind", .str "Dynamic"),
            ("trait_id", .str trait_name),
            ("predicates", .arr jp)], mir₂)
      | .projection itemDefId substs =>
        match substsToJson substs mir with
        | .error e => .error e
        | .ok (js, mir₂) =>
          .ok (Json.obj [("kind", .str "Projection"), ("substs", .arr js),
            ("defid", .str (def_id_str mir.tcx itemDefId))], mir₂)
      | .unnormalizedProjection itemDefId substs =>
        match substsToJson substs mir with
        | .error e => .error e
        | .ok (js, mir₂) =>
          .ok (Json.obj [("kind", .str "UnnormalizedProjection"),
            ("substs", .arr js),
            ("defid", .str (def_id_str mir.tcx itemDefId))], mir₂)
      | .fnPtr sig =>
        match FnSig.toJson sig mir with
        | .error e => .error e
        | .ok (js, mir₂) =>
          .ok (Json.obj [("kind", .str "FnPtr"), ("signature", js)], mir₂)
      | .never => .ok (Json.obj [("kind", .str "Never")], mir)
      | .error => .ok (Json.obj [("kind", .str "Error")], mir)
      | .infer => .ok (Json.obj [("kind", .str "Infer")], mir)
      | .bound => .ok (Json.obj [("kind", .str "Bound")], mir)
      | .placeholder => .ok (Json.obj [("kind", .str "Placeholder")], mir)
      | .foreign => .ok (Json.obj [("kind", .str "Foreign")], mir)
      | .generator => .ok (Json.obj [("kind", .str "Generator")], mir)
      | .generatorWitness =>
        .ok (Json.obj [("kind", .str "GeneratorWitness")], mir)
      | .opaqueTy => .ok (Json.obj [("kind", .str "Opaque")], mir)
      : Except Panic (Json × MirState)) with
    | .error e => .error e
    | .ok (j, mir₂) =>
      let (id, tys₂) := mir₂.tys.insert t j
      .ok (.num id, { mir₂ with tys := tys₂ })

/-- `impl ToJson for ty::List<Ty>` / `Vec<Ty>`: lower each element in
order, threading the state. -/
def tyListToJson (ts : TyList) (mir : MirState) :
    Except Panic (List Json × MirState) :=
  match ts with
  | .nil => .ok ([], mir)
  | .cons t rest =>
    match Ty.toJson t mir with
    | .error e => .error e
    | .ok (j, mir₂) =>
      match tyListToJson rest mir₂ with
      | .error e => .error e
      | .ok (js, mir₃) => .ok (j :: js, mir₃)

/-- `impl ToJson for ty::subst::GenericArg`: types are interned, lifetime
and const arguments are placeholder strings. -/
def GenericArg.toJson (a : GenericArg) (mir : MirState) :
    Except Panic (Json × MirState) :=
  match a with
  | .type t => Ty.toJson t mir
  | .lifetime => .ok (.str "nonty::Lifetime", mir)
  | .const => .ok (.str "nonty::Const", mir)

/-- `impl ToJson for ty::List<GenericArg>`: lower each argument in order. -/
def substsToJson (s : Substs) (mir : MirState) :
    Except Panic (List Json × MirState) :=
  match s with
  | .nil => .ok ([], mir)
  | .cons a rest =>
    match GenericArg.toJson a mir with
    | .error e => .error e
    | .ok (j, mir₂) =>
      match substsToJson rest mir₂ with
      | .error e => .error e
      | .ok (js, mir₃) => .ok (j :: js, mir₃)

/-- Modelled from the spec: `substs.as_closure().upvar_tys(..)` followed by
`collect` and `to_json` — the rustc oracle exposes the upvar types carried
in the closure substitution list; each is lowered in order. -/
def upvarTysToJson (s : Substs) (mir : MirState) :
    Except Panic (List Json × MirState) :=
  match s with
  | .nil => .ok ([], mir)
  | .cons (.type t) rest =>
    match Ty.toJson t mir with
    | .error e => .error e
    | .ok (j, mir₂) =>
      match upvarTysToJson rest mir₂ with
      | .error e => .error e
      | .ok (js, mir₃) => .ok (j :: js, mir₃)
  | .cons .lifetime rest => upvarTysToJson rest mir
  | .cons .const rest => upvarTysToJson rest mir

/-- `impl ToJson for ty::FnSig` (after `erase_late_bound_regions`): lower
the input types, the output type and the ABI name. -/
def FnSig.toJson (sig : FnSig) (mir : MirState) :
    Except Panic (Json × MirState) :=
  match sig with
  | .mk inputs output abi =>
    match tyListToJson inputs mir with
    | .error e => .error e
    | .ok (ji, mir₂) =>
      match Ty.toJson output mir₂ with
      | .error e => .error e
      | .ok (jo, mir₃) =>
        .ok (Json.obj [("inputs", .arr ji), ("output", jo),
          ("abi", .str abi.name)], mir₃)

/-- `impl ToJson for ty::ExistentialPredicate`. -/
def ExPred.toJson (p : ExPred) (mir : MirState) :
    Except Panic (Json × MirState) :=
  match p with
  | .trait defId substs =>
    match substsToJson substs mir with
    | .error e => .error e
    | .ok (js, mir₂) =>
      .ok (Json.obj [("kind", .str "Trait"),
        ("trait", .str (def_id_str mir.tcx defId)),
        ("substs", .arr js)], mir₂)
  | .projection itemDefId substs rhsTy =>
    match substsToJson substs mir with
    | .error e => .error e
    | .ok (js, mir₂) =>
      match Ty.toJson rhsTy mir₂ with
      | .error e => .error e
      | .ok (jr, mir₃) =>
        .ok (Json.obj [("kind", .str "Projection"),
          ("proj", .str (def_id_str mir.tcx itemDefId)),
          ("substs", .arr js),
          ("rhs_ty", jr)], mir₃)
  | .autoTrait defId =>
    .ok (Json.obj [("kind", .str "AutoTrait"),
      ("trait", .str (def_id_str mir.tcx defId))], mir)

/-- `impl ToJson for ty::List<ExistentialPredicate>`. -/
def exPredsToJson (ps : ExPreds) (mir : MirState) :
    Except Panic (List Json × MirState) :=
  match ps with
  | .nil => .ok ([], mir)
  | .cons p rest =>
    match ExPred.toJson p mir with
    | .error e => .error e
    | .ok (j, mir₂) =>
      match exPredsToJson rest mir₂ with
      | .error e => .error e
      | .ok (js, mir₃) => .ok (j :: js, mir₃)

/-- `impl ToJson for ty::Const`: intern the constant's type, record an
`initializer` for unevaluated constants, evaluate (possibly panicking in
`do_const_eval` or on an unknown `ConstKind`), and attach a `rendered`
literal when `render_constant` produces one. -/
def Const.toJson (c : Const) (mir : MirState) :
    Except Panic (Json × MirState) :=
  match c with
  | .mk ty val =>
    match Ty.toJson ty mir with
    | .error e => .error e
    | .ok (jty, mir₁) =>
      match (match val with
        | .unevaluated d s p =>
          (match get_promoted_name mir₁ d s p with
           | .error e => .error e
           | .ok (nm, mir₂) =>
             .ok (some (Json.obj [("def_id", .str nm), ("substs", .arr [])]),
               mir₂))
        | _ => .ok (none, mir₁)
        : Except Panic (Option Json × MirState)) with
      | .error e => .error e
      | .ok (initJ, mir₂) =>
        match (match val with
          | .unevaluated d s p => do_const_eval mir₂.tcx d s p
          | .value v => .ok v
          | .other => .error "panic: do not know how to translate ConstKind"
          : Except Panic ConstValue) with
        | .error e => .error e
        | .ok evaluated =>
          match (match evaluated with
            | .scalarRaw size data =>
              render_constant mir₂ ty (some (size, data)) none
            | .scalarPtr allocId _ =>
              .ok ((match mir₂.tcx.getGlobalAlloc allocId with
                | some (.staticAlloc d) =>
                  some (Json.obj [("kind", .str "static_ref"),
                    ("def_id", .str (def_id_str mir₂.tcx d))])
                | some .otherAlloc => none
                | none => none), mir₂)
            | .slice data start stop =>
              render_constant mir₂ ty none (some (data, start, stop))
            | .byRef => .ok (none, mir₂)
            : Except Panic (Option Json × MirState)) with
          | .error e => .error e
          | .ok (rendered, mir₃) =>
            .ok (.obj ([("kind", .str "Const"), ("ty", jty)] ++
              (match initJ with
               | some ij => [("initializer", ij)]
               | none => []) ++
              (match rendered with
               | some r => [("rendered", r)]
               | none => [])), mir₃)
end

/-! ### Interning-table lemmas -/

/-- Scanning an appended list: if the key is not in the first part, the scan
continues into the second part with the offset advanced. -/
theorem lookupIdx_append (t : Ty) (l₁ l₂ : List (Ty × Json)) (k : Nat) :
    lookupIdx t (l₁ ++ l₂) k =
      (match lookupIdx t l₁ k with
       | some i => some i
       | none => lookupIdx t l₂ (k + l₁.length)) := by
  induction l₁ generalizing k with
  | nil => simp [lookupIdx]
  | cons p ps ih =>
    by_cases hp : p.1 = t
    · simp [lookupIdx, hp]
    · have hih := ih (k + 1)
      simp only [List.cons_append, lookupIdx, hp, if_false, List.length_cons]
      have harith : k + 1 + ps.length = k + (ps.length + 1) := by omega
      rw [← harith]
      exact hih

/-- The scan fails exactly when no entry has the key. -/
theorem lookupIdx_none_iff (t : Ty) (l : List (Ty × Json)) (k : Nat) :
    lookupIdx t l k = none ↔ ∀ p ∈ l, p.1 ≠ t := by
  induction l generalizing k with
  | nil => simp [lookupIdx]
  | cons p ps ih =>
    by_cases hp : p.1 = t
    · simp [lookupIdx, hp]
    · simp [lookupIdx, hp, ih]

/-- A key that is absent stays absent in the keys list. -/
theorem not_mem_keys_of_lookupIdx_none (t : Ty) (l : List (Ty × Json))
    (h : lookupIdx t l 0 = none) : t ∉ l.map Prod.fst := by
  rw [lookupIdx_none_iff] at h
  intro hmem
  obtain ⟨p, hp, hfst⟩ := List.mem_map.mp hmem
  exact h p hp hfst

/-- A key that is found is in the keys list. -/
theorem mem_keys_of_lookupIdx_some (t : Ty) (l : List (Ty × Json)) (k i : Nat)
    (h : lookupIdx t l k = some i) : t ∈ l.map Prod.fst := by
  induction l generalizing k with
  | nil => simp [lookupIdx] at h
  | cons p ps ih =>
    by_cases hp : p.1 = t
    · simp [hp ▸ List.mem_map_of_mem Prod.fst (List.mem_cons_self p ps)]
      exact Or.inl hp.symm
    · simp only [lookupIdx, hp, if_false] at h
      simp [ih (k + 1) h]

/-- No-duplicate-keys predicate for the interning table. -/
def NoDupKeys (tbl : TyIntern) : Prop := (tbl.entries.map Prod.fst).Nodup

/-- How many entries of the table carry the given key. -/
def TyIntern.countKey (tbl : TyIntern) (t : Ty) : Nat :=
  (tbl.entries.map Prod.fst).count t

/-! ### The table-extension invariant -/

/-- One lowering step only appends interning entries, never rewrites them;
every appended key is bounded in size by `b`; the type context is
untouched; and key-uniqueness is preserved. -/
def TysExt (m m' : MirState) (b : Nat) : Prop :=
  m'.tcx = m.tcx ∧
  (NoDupKeys m.tys → NoDupKeys m'.tys) ∧
  ∃ new, m'.tys.entries = m.tys.entries ++ new ∧ ∀ p ∈ new, sizeOf p.1 ≤ b

theorem TysExt.refl (m : MirState) (b : Nat) : TysExt m m b :=
  ⟨rfl, fun h => h, [], by simp, by simp⟩

theorem TysExt.of_tys_eq {m m' : MirState} (b : Nat)
    (hty : m'.tys = m.tys) (htc : m'.tcx = m.tcx) : TysExt m m' b :=
  ⟨htc, fun h => hty ▸ h, [], by simp [hty], by simp⟩

theorem TysExt.mono {m m' : MirState} {b b' : Nat}
    (h : TysExt m m' b) (hb : b ≤ b') : TysExt m m' b' := by
  obtain ⟨htc, hnd, new, hent, hsz⟩ := h
  exact ⟨htc, hnd, new, hent, fun p hp => le_trans (hsz p hp) hb⟩

theorem TysExt.trans {m₁ m₂ m₃ : MirState} {b : Nat}
    (h : TysExt m₁ m₂ b) (h' : TysExt m₂ m₃ b) : TysExt m₁ m₃ b := by
  obtain ⟨htc, hnd, new, hent, hsz⟩ := h
  obtain ⟨htc', hnd', new', hent', hsz'⟩ := h'
  refine ⟨htc'.trans htc, fun hd => hnd' (hnd hd), new ++ new', ?_, ?_⟩
  · rw [hent', hent, List.append_assoc]
  · intro p hp
    rcases List.mem_append.mp hp with h | h
    · exact hsz p h
    · exact hsz' p h

/-- If a step only appends keys strictly smaller than `t`, a `t` that was
absent before is still absent afterwards. -/
theorem get_none_of_ext {m m₂ : MirState} {t : Ty} {b : Nat}
    (hg : m.tys.get t = none) (hext : TysExt m m₂ b) (hb : b < sizeOf t) :
    m₂.tys.get t = none := by
  obtain ⟨-, -, new, hent, hsz⟩ := hext
  unfold TyIntern.get at hg ⊢
  rw [hent, lookupIdx_append, hg]
  rw [lookupIdx_none_iff]
  intro p hp hfst
  have := hsz p hp
  rw [hfst] at this
  omega

/-- Entries present before a step keep their IDs. -/
theorem get_some_of_ext {m m₂ : MirState} {t : Ty} {b : Nat} {i : Nat}
    (hg : m.tys.get t = some i) (hext : TysExt m m₂ b) :
    m₂.tys.get t = some i := by
  obtain ⟨-, -, new, hent, -⟩ := hext
  unfold TyIntern.get at hg ⊢
  rw [hent, lookupIdx_append, hg]

/-- The common final step of `Ty.toJson` in the not-yet-interned case:
after the body has been lowered (state `m` to `mbody`, adding only keys
strictly smaller than `t`), inserting `(t, jbody)` appends a fresh entry
whose ID is the table length, preserves key-uniqueness, and makes `t`
resolvable. -/
theorem toJson_wrap_ext {t : Ty} {m mbody m' : MirState} {jbody j : Json}
    {b : Nat}
    (hg : m.tys.get t = none)
    (hbody : TysExt m mbody b)
    (hb : b < sizeOf t)
    (hmk : (Except.ok (Json.num mbody.tys.entries.length,
        { mbody with tys := ⟨mbody.tys.entries ++ [(t, jbody)]⟩ })
        : Except Panic (Json × MirState)) = .ok (j, m')) :
    TysExt m m' (sizeOf t) ∧ ∃ id, j = .num id ∧ m'.tys.get t = some id := by
  injection hmk with hmk
  rw [Prod.mk.injEq] at hmk
  obtain ⟨hj, hm⟩ := hmk
  subst hj
  subst hm
  have hnone₂ : mbody.tys.get t = none := get_none_of_ext hg hbody hb
  obtain ⟨htc, hnd, new, hent, hsz⟩ := hbody
  constructor
  · refine ⟨htc, ?_, new ++ [(t, jbody)], ?_, ?_⟩
    · intro hd
      have hnd₂ := hnd hd
      unfold NoDupKeys at hnd₂ ⊢
      simp only [TyIntern.insert, List.map_append, List.map_cons,
        List.map_nil]
      rw [List.nodup_append]
      refine ⟨hnd₂, by simp, ?_⟩
      intro x hx hx'
      simp only [List.mem_singleton] at hx'
      exact not_mem_keys_of_lookupIdx_none t mbody.tys.entries hnone₂
        (hx' ▸ hx)
    · simp [TyIntern.insert, hent, List.append_assoc]
    · intro p hp
      rcases List.mem_append.mp hp with h | h
      · exact le_trans (hsz p h) (le_of_lt hb)
      · simp only [List.mem_singleton] at h
        subst h
        exact le_refl _
  · refine ⟨mbody.tys.entries.length, rfl, ?_⟩
    show lookupIdx t (mbody.tys.entries ++ [(t, jbody)]) 0 = _
    rw [lookupIdx_append]
    unfold TyIntern.get at hnone₂
    rw [hnone₂]
    simp [lookupIdx]

/-! ### State-preservation lemmas for the non-interning helpers -/

/-- `get_fn_def_name` touches the used sets and diagnostics, never the
interning table or the type context. -/
theorem get_fn_def_name_state {mir : MirState} {defid : DefId}
    {substs : Substs} {n : String} {mir' : MirState}
    (h : get_fn_def_name mir defid substs = .ok (n, mir')) :
    mir'.tys = mir.tys ∧ mir'.tcx = mir.tcx := by
  unfold get_fn_def_name at h
  cases hres : mir.tcx.resolve defid substs with
  | some inst =>
    simp only [hres] at h
    cases hid : inst_id_str mir.tcx inst with
    | error e =>
      rw [hid] at h
      exact Except.noConfusion h
    | ok s =>
      rw [hid] at h
      replace h := congrArg Prod.snd (Except.ok.inj h)
      dsimp only at h
      subst h
      exact ⟨rfl, rfl⟩
  | none =>
    simp only [hres] at h
    replace h := congrArg Prod.snd (Except.ok.inj h)
    dsimp only at h
    subst h
    exact ⟨rfl, rfl⟩

/-- `get_promoted_name` likewise preserves the interning table. -/
theorem get_promoted_name_state {mir : MirState} {defid : DefId}
    {substs : Substs} {promoted : Option Nat} {n : String} {mir' : MirState}
    (h : get_promoted_name mir defid substs promoted = .ok (n, mir')) :
    mir'.tys = mir.tys ∧ mir'.tcx = mir.tcx := by
  unfold get_promoted_name at h
  cases hfn : get_fn_def_name mir defid substs with
  | error e =>
    rw [hfn] at h
    exact Except.noConfusion h
  | ok r =>
    obtain ⟨parent, mir₁⟩ := r
    rw [hfn] at h
    have hst := get_fn_def_name_state hfn
    cases promoted with
    | some x =>
      replace h := congrArg Prod.snd (Except.ok.inj h)
      dsimp only at h
      subst h
      exact hst
    | none =>
      replace h := congrArg Prod.snd (Except.ok.inj h)
      dsimp only at h
      subst h
      exact hst

/-- `render_constant` never touches the interning table or type context. -/
theorem render_constant_state {mir : MirState} {ty : Ty}
    {scalar : Option (Nat × Nat)} {slice : Option (Allocation × Nat × Nat)}
    {o : Option Json} {mir' : MirState}
    (h : render_constant mir ty scalar slice = .ok (o, mir')) :
    mir'.tys = mir.tys ∧ mir'.tcx = mir.tcx := by
  unfold render_constant at h
  repeat' split at h
  all_goals
    first
      | exact Except.noConfusion h
      | (replace h := congrArg Prod.snd (Except.ok.inj h)
         dsimp only at h
         subst h
         first
           | exact ⟨rfl, rfl⟩
           | (rename_i heq
              exact get_fn_def_name_state heq))

/-- Every `Ty` has positive size. -/
theorem Ty.sizeOf_pos (t : Ty) : 0 < sizeOf t := by
  cases t <;> simp_arith

/-- A type that is already interned is returned by ID immediately, with no
state change at all. -/
theorem Ty.toJson_of_get_some {t : Ty} {m : MirState} {id : Nat}
    (h : m.tys.get t = some id) : Ty.toJson t m = .ok (.num id, m) := by
  cases t <;> rw [Ty.toJson, h]

mutual
/-- Structural invariant of `Ty.toJson`: the interning table is extended
append-only with keys no larger than the lowered type, key-uniqueness and
the type context are preserved, and the result is the ID now mapped to the
lowered type. -/
theorem Ty.toJson_tyExt (t : Ty) :
    ∀ m j m', Ty.toJson t m = .ok (j, m') →
      TysExt m m' (sizeOf t) ∧ ∃ id, j = .num id ∧ m'.tys.get t = some id := by
  intro m j m' h
  cases hg : m.tys.get t with
  | some id =>
    rw [Ty.toJson_of_get_some hg] at h
    replace h := Except.ok.inj h
    rw [Prod.mk.injEq] at h
    obtain ⟨hj, hm⟩ := h
    subst hm
    exact ⟨TysExt.refl m (sizeOf t), id, hj.symm, hg⟩
  | none =>
    cases t with
    | bool =>
      rw [Ty.toJson, hg] at h
      exact toJson_wrap_ext hg (TysExt.refl m 0) (Ty.sizeOf_pos _) h
    | char =>
      rw [Ty.toJson, hg] at h
      exact toJson_wrap_ext hg (TysExt.refl m 0) (Ty.sizeOf_pos _) h
    | int it =>
      rw [Ty.toJson, hg] at h
      exact toJson_wrap_ext hg (TysExt.refl m 0) (Ty.sizeOf_pos _) h
    | uint ut =>
      rw [Ty.toJson, hg] at h
      exact toJson_wrap_ext hg (TysExt.refl m 0) (Ty.sizeOf_pos _) h
    | str =>
      rw [Ty.toJson, hg] at h
      exact toJson_wrap_ext hg (TysExt.refl m 0) (Ty.sizeOf_pos _) h
    | float sz =>
      rw [Ty.toJson, hg] at h
      exact toJson_wrap_ext hg (TysExt.refl m 0) (Ty.sizeOf_pos _) h
    | param p =>
      rw [Ty.toJson, hg] at h
      exact toJson_wrap_ext hg (TysExt.refl m 0) (Ty.sizeOf_pos _) h
    | never =>
      rw [Ty.toJson, hg] at h
      exact toJson_wrap_ext hg (TysExt.refl m 0) (Ty.sizeOf_pos _) h
    | error =>
      rw [Ty.toJson, hg] at h
      exact toJson_wrap_ext hg (TysExt.refl m 0) (Ty.sizeOf_pos _) h
    | infer =>
      rw [Ty.toJson, hg] at h
      exact toJson_wrap_ext hg (TysExt.refl m 0) (Ty.sizeOf_pos _) h
    | bound =>
      rw [Ty.toJson, hg] at h
      exact toJson_wrap_ext hg (TysExt.refl m 0) (Ty.sizeOf_pos _) h
    | placeholder =>
      rw [Ty.toJson, hg] at h
      exact toJson_wrap_ext hg (TysExt.refl m 0) (Ty.sizeOf_pos _) h
    | foreign =>
      rw [Ty.toJson, hg] at h
      exact toJson_wrap_ext hg (TysExt.refl m 0) (Ty.sizeOf_pos _) h
    | generator =>
      rw [Ty.toJson, hg] at h
      exact toJson_wrap_ext hg (TysExt.refl m 0) (Ty.sizeOf_pos _) h
    | generatorWitness =>
      rw [Ty.toJson, hg] at h
      exact toJson_wrap_ext hg (TysExt.refl m 0) (Ty.sizeOf_pos _) h
    | opaqueTy =>
      rw [Ty.toJson, hg] at h
      exact toJson_wrap_ext hg (TysExt.refl m 0) (Ty.sizeOf_pos _) h
    | tuple sl =>
      rw [Ty.toJson, hg] at h
      cases hrec : tyListToJson sl m with
      | error e =>
        rw [hrec] at h
        exact Except.noConfusion h
      | ok r =>
        obtain ⟨js, m₂⟩ := r
        have hext := tyListToJson_ext sl m js m₂ hrec
        rw [hrec] at h
        exact toJson_wrap_ext hg hext (by simp_arith) h
    | slice f =>
      rw [Ty.toJson, hg] at h
      cases hrec : Ty.toJson f m with
      | error e =>
        rw [hrec] at h
        exact Except.noConfusion h
      | ok r =>
        obtain ⟨jf, m₂⟩ := r
        obtain ⟨hext, -⟩ := Ty.toJson_tyExt f m jf m₂ hrec
        rw [hrec] at h
        exact toJson_wrap_ext hg hext (by simp_arith) h
    | ref pointee mtbl =>
      rw [Ty.toJson, hg] at h
      cases hrec : Ty.toJson pointee m with
      | error e =>
        rw [hrec] at h
        exact Except.noConfusion h
      | ok r =>
        obtain ⟨jp, m₂⟩ := r
        obtain ⟨hext, -⟩ := Ty.toJson_tyExt pointee m jp m₂ hrec
        rw [hrec] at h
        exact toJson_wrap_ext hg hext (by simp_arith) h
    | rawPtr pointee mtbl =>
      rw [Ty.toJson, hg] at h
      cases hrec : Ty.toJson pointee m with
      | error e =>
        rw [hrec] at h
        exact Except.noConfusion h
      | ok r =>
        obtain ⟨jp, m₂⟩ := r
        obtain ⟨hext, -⟩ := Ty.toJson_tyExt pointee m jp m₂ hrec
        rw [hrec] at h
        exact toJson_wrap_ext hg hext (by simp_arith) h
    | array elemTy szc =>
      rw [Ty.toJson, hg] at h
      cases hrec : Ty.toJson elemTy m with
      | error e =>
        rw [hrec] at h
        exact Except.noConfusion h
      | ok r =>
        obtain ⟨jt, m₂⟩ := r
        obtain ⟨hext1, -⟩ := Ty.toJson_tyExt elemTy m jt m₂ hrec
        rw [hrec] at h
        simp only [] at h
        cases hrec2 : Const.toJson szc m₂ with
        | error e =>
          rw [hrec2] at h
          exact Except.noConfusion h
        | ok r2 =>
          obtain ⟨jsz, m₃⟩ := r2
          have hext2 := Const.toJson_cExt szc m₂ jsz m₃ hrec2
          rw [hrec2] at h
          exact toJson_wrap_ext hg
            (TysExt.trans
              (hext1.mono (show sizeOf elemTy ≤ sizeOf elemTy + sizeOf szc
                by omega))
              (hext2.mono (show sizeOf szc ≤ sizeOf elemTy + sizeOf szc
                by omega)))
            (by simp_arith) h
    | adt adtDef substs =>
      rw [Ty.toJson, hg] at h
      simp only [] at h
      cases hrec : substsToJson substs
          { m with used := { m.used with
              types := insertOnce ⟨adtDef, substs⟩ m.used.types } } with
      | error e =>
        rw [hrec] at h
        exact Except.noConfusion h
      | ok r =>
        obtain ⟨js, m₂⟩ := r
        have hext := substsToJson_ext substs _ js m₂ hrec
        rw [hrec] at h
        exact toJson_wrap_ext hg
          (TysExt.trans (TysExt.of_tys_eq _ rfl rfl) hext)
          (by simp_arith) h
    | fnDef defId substs =>
      rw [Ty.toJson, hg] at h
      cases hrec : get_fn_def_name m defId substs with
      | error e =>
        rw [hrec] at h
        exact Except.noConfusion h
      | ok r =>
        obtain ⟨name, m₁⟩ := r
        obtain ⟨hty, htc⟩ := get_fn_def_name_state hrec
        rw [hrec] at h
        exact toJson_wrap_ext hg (TysExt.of_tys_eq 0 hty htc)
          (Ty.sizeOf_pos _) h
    | closure defId substs =>
      rw [Ty.toJson, hg] at h
      cases hrec : substsToJson substs m with
      | error e =>
        rw [hrec] at h
        exact Except.noConfusion h
      | ok r =>
        obtain ⟨js, m₂⟩ := r
        have hext1 := substsToJson_ext substs m js m₂ hrec
        rw [hrec] at h
        simp only [] at h
        cases hrec2 : upvarTysToJson substs m₂ with
        | error e =>
          rw [hrec2] at h
          exact Except.noConfusion h
        | ok r2 =>
          obtain ⟨ju, m₃⟩ := r2
          have hext2 := upvarTysToJson_ext substs m₂ ju m₃ hrec2
          rw [hrec2] at h
          exact toJson_wrap_ext hg (TysExt.trans hext1 hext2)
            (by simp_arith) h
    | dynamic preds =>
      rw [Ty.toJson, hg] at h
      simp only [] at h
      cases hrec : exPredsToJson preds
          { m with used := { m.used with
              traits := insertOnce (m.tcx.fromDynamicPredicates preds)
                m.used.traits } } with
      | error e =>
        rw [hrec] at h
        exact Except.noConfusion h
      | ok r =>
        obtain ⟨jp, m₂⟩ := r
        have hext := exPredsToJson_ext preds _ jp m₂ hrec
        rw [hrec] at h
        exact toJson_wrap_ext hg
          (TysExt.trans (TysExt.of_tys_eq _ rfl rfl) hext)
          (by simp_arith) h
    | projection itemDefId substs =>
      rw [Ty.toJson, hg] at h
      cases hrec : substsToJson substs m with
      | error e =>
        rw [hrec] at h
        exact Except.noConfusion h
      | ok r =>
        obtain ⟨js, m₂⟩ := r
        have hext := substsToJson_ext substs m js m₂ hrec
        rw [hrec] at h
        exact toJson_wrap_ext hg hext (by simp_arith) h
    | unnormalizedProjection itemDefId substs =>
      rw [Ty.toJson, hg] at h
      cases hrec : substsToJson substs m with
      | error e =>
        rw [hrec] at h
        exact Except.noConfusion h
      | ok r =>
        obtain ⟨js, m₂⟩ := r
        have hext := substsToJson_ext substs m js m₂ hrec
        rw [hrec] at h
        exact toJson_wrap_ext hg hext (by simp_arith) h
    | fnPtr sig =>
      rw [Ty.toJson, hg] at h
      cases hrec : FnSig.toJson sig m with
      | error e =>
        rw [hrec] at h
        exact Except.noConfusion h
      | ok r =>
        obtain ⟨js, m₂⟩ := r
        have hext := FnSig.toJson_fsExt sig m js m₂ hrec
        rw [hrec] at h
        exact toJson_wrap_ext hg hext (by simp_arith) h

/-- `tyListToJson` only appends interning entries for (sub)types of the
list elements. -/
theorem tyListToJson_ext (ts : TyList) :
    ∀ m js m', tyListToJson ts m = .ok (js, m') → TysExt m m' (sizeOf ts) := by
  intro m js m' h
  cases ts with
  | nil =>
    rw [tyListToJson] at h
    replace h := congrArg Prod.snd (Except.ok.inj h)
    dsimp only at h
    subst h
    exact TysExt.refl m _
  | cons t rest =>
    rw [tyListToJson] at h
    cases hrec : Ty.toJson t m with
    | error e =>
      rw [hrec] at h
      exact Except.noConfusion h
    | ok r =>
      obtain ⟨j₁, m₂⟩ := r
      obtain ⟨hext1, -⟩ := Ty.toJson_tyExt t m j₁ m₂ hrec
      rw [hrec] at h
      simp only [] at h
      cases hrec2 : tyListToJson rest m₂ with
      | error e =>
        rw [hrec2] at h
        exact Except.noConfusion h
      | ok r2 =>
        obtain ⟨js2, m₃⟩ := r2
        have hext2 := tyListToJson_ext rest m₂ js2 m₃ hrec2
        rw [hrec2] at h
        replace h := congrArg Prod.snd (Except.ok.inj h)
        dsimp only at h
        subst h
        exact TysExt.trans (hext1.mono (by simp_arith))
          (hext2.mono (by simp_arith))

/-- `GenericArg.toJson` only appends interning entries for (sub)types of
the argument. -/
theorem GenericArg.toJson_gaExt (a : GenericArg) :
    ∀ m j m', GenericArg.toJson a m = .ok (j, m') → TysExt m m' (sizeOf a) := by
  intro m j m' h
  cases a with
  | type t =>
    rw [GenericArg.toJson] at h
    obtain ⟨hext, -⟩ := Ty.toJson_tyExt t m j m' h
    exact hext.mono (by simp_arith)
  | lifetime =>
    rw [GenericArg.toJson] at h
    replace h := congrArg Prod.snd (Except.ok.inj h)
    dsimp only at h
    subst h
    exact TysExt.refl m _
  | const =>
    rw [GenericArg.toJson] at h
    replace h := congrArg Prod.snd (Except.ok.inj h)
    dsimp only at h
    subst h
    exact TysExt.refl m _

/-- `substsToJson` only appends interning entries for (sub)types of the
substitution list. -/
theorem substsToJson_ext (s : Substs) :
    ∀ m js m', substsToJson s m = .ok (js, m') → TysExt m m' (sizeOf s) := by
  intro m js m' h
  cases s with
  | nil =>
    rw [substsToJson] at h
    replace h := congrArg Prod.snd (Except.ok.inj h)
    dsimp only at h
    subst h
    exact TysExt.refl m _
  | cons a rest =>
    rw [substsToJson] at h
    cases hrec : GenericArg.toJson a m with
    | error e =>
      rw [hrec] at h
      exact Except.noConfusion h
    | ok r =>
      obtain ⟨j₁, m₂⟩ := r
      have hext1 := GenericArg.toJson_gaExt a m j₁ m₂ hrec
      rw [hrec] at h
      simp only [] at h
      cases hrec2 : substsToJson rest m₂ with
      | error e =>
        rw [hrec2] at h
        exact Except.noConfusion h
      | ok r2 =>
        obtain ⟨js2, m₃⟩ := r2
        have hext2 := substsToJson_ext rest m₂ js2 m₃ hrec2
        rw [hrec2] at h
        replace h := congrArg Prod.snd (Except.ok.inj h)
        dsimp only at h
        subst h
        exact TysExt.trans (hext1.mono (by simp_arith))
          (hext2.mono (by simp_arith))

/-- `upvarTysToJson` only appends interning entries for (sub)types of the
closure substitution list. -/
theorem upvarTysToJson_ext (s : Substs) :
    ∀ m js m', upvarTysToJson s m = .ok (js, m') → TysExt m m' (sizeOf s) := by
  intro m js m' h
  cases s with
  | nil =>
    rw [upvarTysToJson] at h
    replace h := congrArg Prod.snd (Except.ok.inj h)
    dsimp only at h
    subst h
    exact TysExt.refl m _
  | cons a rest =>
    cases a with
    | type t =>
      rw [upvarTysToJson] at h
      cases hrec : Ty.toJson t m with
      | error e =>
        rw [hrec] at h
        exact Except.noConfusion h
      | ok r =>
        obtain ⟨j₁, m₂⟩ := r
        obtain ⟨hext1, -⟩ := Ty.toJson_tyExt t m j₁ m₂ hrec
        rw [hrec] at h
        simp only [] at h
        cases hrec2 : upvarTysToJson rest m₂ with
        | error e =>
          rw [hrec2] at h
          exact Except.noConfusion h
        | ok r2 =>
          obtain ⟨js2, m₃⟩ := r2
          have hext2 := upvarTysToJson_ext rest m₂ js2 m₃ hrec2
          rw [hrec2] at h
          replace h := congrArg Prod.snd (Except.ok.inj h)
          dsimp only at h
          subst h
          exact TysExt.trans (hext1.mono (by simp_arith))
            (hext2.mono (by simp_arith))
    | lifetime =>
      rw [upvarTysToJson] at h
      have hext := upvarTysToJson_ext rest m js m' h
      exact hext.mono (by simp_arith)
    | const =>
      rw [upvarTysToJson] at h
      have hext := upvarTysToJson_ext rest m js m' h
      exact hext.mono (by simp_arith)

/-- `FnSig.toJson` only appends interning entries for (sub)types of the
signature. -/
theorem FnSig.toJson_fsExt (sig : FnSig) :
    ∀ m j m', FnSig.toJson sig m = .ok (j, m') → TysExt m m' (sizeOf sig) := by
  intro m j m' h
  cases sig with
  | mk inputs output abi =>
    rw [FnSig.toJson] at h
    cases hrec : tyListToJson inputs m with
    | error e =>
      rw [hrec] at h
      exact Except.noConfusion h
    | ok r =>
      obtain ⟨ji, m₂⟩ := r
      have hext1 := tyListToJson_ext inputs m ji m₂ hrec
      rw [hrec] at h
      simp only [] at h
      cases hrec2 : Ty.toJson output m₂ with
      | error e =>
        rw [hrec2] at h
        exact Except.noConfusion h
      | ok r2 =>
        obtain ⟨jo, m₃⟩ := r2
        obtain ⟨hext2, -⟩ := Ty.toJson_tyExt output m₂ jo m₃ hrec2
        rw [hrec2] at h
        replace h := congrArg Prod.snd (Except.ok.inj h)
        dsimp only at h
        subst h
        exact TysExt.trans (hext1.mono (by simp_arith))
          (hext2.mono (by simp_arith))

/-- `ExPred.toJson` only appends interning entries for (sub)types of the
predicate. -/
theorem ExPred.toJson_epExt (p : ExPred) :
    ∀ m j m', ExPred.toJson p m = .ok (j, m') → TysExt m m' (sizeOf p) := by
  intro m j m' h
  cases p with
  | trait defId substs =>
    rw [ExPred.toJson] at h
    cases hrec : substsToJson substs m with
    | error e =>
      rw [hrec] at h
      exact Except.noConfusion h
    | ok r =>
      obtain ⟨js, m₂⟩ := r
      have hext := substsToJson_ext substs m js m₂ hrec
      rw [hrec] at h
      replace h := congrArg Prod.snd (Except.ok.inj h)
      dsimp only at h
      subst h
      exact hext.mono (by simp_arith)
  | projection itemDefId substs rhsTy =>
    rw [ExPred.toJson] at h
    cases hrec : substsToJson substs m with
    | error e =>
      rw [hrec] at h
      exact Except.noConfusion h
    | ok r =>
      obtain ⟨js, m₂⟩ := r
      have hext1 := substsToJson_ext substs m js m₂ hrec
      rw [hrec] at h
      simp only [] at h
      cases hrec2 : Ty.toJson rhsTy m₂ with
      | error e =>
        rw [hrec2] at h
        exact Except.noConfusion h
      | ok r2 =>
        obtain ⟨jr, m₃⟩ := r2
        obtain ⟨hext2, -⟩ := Ty.toJson_tyExt rhsTy m₂ jr m₃ hrec2
        rw [hrec2] at h
        replace h := congrArg Prod.snd (Except.ok.inj h)
        dsimp only at h
        subst h
        exact TysExt.trans (hext1.mono (by simp_arith))
          (hext2.mono (by simp_arith))
  | autoTrait defId =>
    rw [ExPred.toJson] at h
    replace h := congrArg Prod.snd (Except.ok.inj h)
    dsimp only at h
    subst h
    exact TysExt.refl m _

/-- `exPredsToJson` only appends interning entries for (sub)types of the
predicate list. -/
theorem exPredsToJson_ext (ps : ExPreds) :
    ∀ m js m', exPredsToJson ps m = .ok (js, m') → TysExt m m' (sizeOf ps) := by
  intro m js m' h
  cases ps with
  | nil =>
    rw [exPredsToJson] at h
    replace h := congrArg Prod.snd (Except.ok.inj h)
    dsimp only at h
    subst h
    exact TysExt.refl m _
  | cons p rest =>
    rw [exPredsToJson] at h
    cases hrec : ExPred.toJson p m with
    | error e =>
      rw [hrec] at h
      exact Except.noConfusion h
    | ok r =>
      obtain ⟨j₁, m₂⟩ := r
      have hext1 := ExPred.toJson_epExt p m j₁ m₂ hrec
      rw [hrec] at h
      simp only [] at h
      cases hrec2 : exPredsToJson rest m₂ with
      | error e =>
        rw [hrec2] at h
        exact Except.noConfusion h
      | ok r2 =>
        obtain ⟨js2, m₃⟩ := r2
        have hext2 := exPredsToJson_ext rest m₂ js2 m₃ hrec2
        rw [hrec2] at h
        replace h := congrArg Prod.snd (Except.ok.inj h)
        dsimp only at h
        subst h
        exact TysExt.trans (hext1.mono (by simp_arith))
          (hext2.mono (by simp_arith))

/-- `Const.toJson` only appends interning entries for (sub)types of the
constant. -/
theorem Const.toJson_cExt (c : Const) :
    ∀ m j m', Const.toJson c m = .ok (j, m') → TysExt m m' (sizeOf c) := by
  intro m j m' h
  cases c with
  | mk ty val =>
    rw [Const.toJson] at h
    cases hrec : Ty.toJson ty m with
    | error e =>
      rw [hrec] at h
      exact Except.noConfusion h
    | ok r =>
      obtain ⟨jty, m₁⟩ := r
      obtain ⟨hext1, -⟩ := Ty.toJson_tyExt ty m jty m₁ hrec
      rw [hrec] at h
      have hbound : sizeOf ty ≤ sizeOf (Const.mk ty val) := by simp_arith
      cases val with
      | unevaluated d s p =>
        simp only [] at h
        cases hp : get_promoted_name m₁ d s p with
        | error e =>
          rw [hp] at h
          exact Except.noConfusion h
        | ok rp =>
          obtain ⟨nm, m₂⟩ := rp
          obtain ⟨hty2, htc2⟩ := get_promoted_name_state hp
          rw [hp] at h
          simp only [] at h
          cases hce : do_const_eval m₂.tcx d s p with
          | error e =>
            rw [hce] at h
            exact Except.noConfusion h
          | ok ev =>
            rw [hce] at h
            simp only [] at h
            have hpre : TysExt m m₂
                (sizeOf (Const.mk ty (ConstKind.unevaluated d s p))) :=
              TysExt.trans (hext1.mono hbound)
                (TysExt.of_tys_eq _ hty2 htc2)
            cases ev with
            | scalarRaw sz data =>
              simp only [] at h
              cases hrc : render_constant m₂ ty (some (sz, data)) none with
              | error e =>
                rw [hrc] at h
                exact Except.noConfusion h
              | ok rr =>
                obtain ⟨o, m₃⟩ := rr
                obtain ⟨hty3, htc3⟩ := render_constant_state hrc
                rw [hrc] at h
                replace h := congrArg Prod.snd (Except.ok.inj h)
                dsimp only at h
                subst h
                exact TysExt.trans hpre (TysExt.of_tys_eq _ hty3 htc3)
            | scalarPtr aid off =>
              replace h := congrArg Prod.snd (Except.ok.inj h)
              dsimp only at h
              subst h
              exact hpre
            | slice da sa ea =>
              simp only [] at h
              cases hrc : render_constant m₂ ty none (some (da, sa, ea)) with
              | error e =>
                rw [hrc] at h
                exact Except.noConfusion h
              | ok rr =>
                obtain ⟨o, m₃⟩ := rr
                obtain ⟨hty3, htc3⟩ := render_constant_state hrc
                rw [hrc] at h
                replace h := congrArg Prod.snd (Except.ok.inj h)
                dsimp only at h
                subst h
                exact TysExt.trans hpre (TysExt.of_tys_eq _ hty3 htc3)
            | byRef =>
              replace h := congrArg Prod.snd (Except.ok.inj h)
              dsimp only at h
              subst h
              exact hpre
      | value v =>
        simp only [] at h
        have hpre : TysExt m m₁ (sizeOf (Const.mk ty (ConstKind.value v))) :=
          hext1.mono hbound
        cases v with
        | scalarRaw sz data =>
          simp only [] at h
          cases hrc : render_constant m₁ ty (some (sz, data)) none with
          | error e =>
            rw [hrc] at h
            exact Except.noConfusion h
          | ok rr =>
            obtain ⟨o, m₃⟩ := rr
            obtain ⟨hty3, htc3⟩ := render_constant_state hrc
            rw [hrc] at h
            replace h := congrArg Prod.snd (Except.ok.inj h)
            dsimp only at h
            subst h
            exact TysExt.trans hpre (TysExt.of_tys_eq _ hty3 htc3)
        | scalarPtr aid off =>
          replace h := congrArg Prod.snd (Except.ok.inj h)
          dsimp only at h
          subst h
          exact hpre
        | slice da sa ea =>
          simp only [] at h
          cases hrc : render_constant m₁ ty none (some (da, sa, ea)) with
          | error e =>
            rw [hrc] at h
            exact Except.noConfusion h
          | ok rr =>
            obtain ⟨o, m₃⟩ := rr
            obtain ⟨hty3, htc3⟩ := render_constant_state hrc
            rw [hrc] at h
            replace h := congrArg Prod.snd (Except.ok.inj h)
            dsimp only at h
            subst h
            exact TysExt.trans hpre (TysExt.of_tys_eq _ hty3 htc3)
        | byRef =>
          replace h := congrArg Prod.snd (Except.ok.inj h)
          dsimp only at h
          subst h
          exact hpre
      | other => exact Except.noConfusion h
end

/-! ### Name-mangling lemmas -/

/-- Two extended names over the same base and hash payload agree only if
their tags agree: the hash block and `[0]` suffix cancel on the right and
the base and `::` cancel on the left. -/
theorem ext_def_id_str_tag_inj {tcx : TyCtxt} {d : DefId} {t₁ t₂ : String}
    {x : HashInput}
    (h : ext_def_id_str tcx d t₁ x = ext_def_id_str tcx d t₂ x) : t₁ = t₂ := by
  simp only [ext_def_id_str] at h
  have hd := congrArg String.data h
  simp only [String.data_append] at hd
  have h1 := List.append_cancel_right hd
  have h2 := List.append_cancel_right h1
  have h3 := List.append_cancel_left h2
  exact String.ext h3

/-- A bare definition name is strictly shorter than any extended name over
the same definition, hence never equal to one. -/
theorem def_id_str_ne_ext (tcx : TyCtxt) (d : DefId) (t : String)
    (x : HashInput) : def_id_str tcx d ≠ ext_def_id_str tcx d t x := by
  intro h
  have hl := congrArg String.length h
  simp only [ext_def_id_str, String.length_append] at hl
  have h2 : "::".length = 2 := rfl
  omega

/-- The `_virt<idx>_` tag differs from every tag whose first five
characters are not `_virt`. -/
theorem virt_tag_ne (idx : Nat) (t : String)
    (ht : t.data.take 5 ≠ ('_' :: 'v' :: 'i' :: 'r' :: 't' :: [])) :
    "_virt" ++ toString idx ++ "_" ≠ t := by
  intro h
  apply ht
  rw [← h]
  have hsplit : ("_virt" ++ toString idx ++ "_").data =
      "_virt".data ++ ((toString idx).data ++ "_".data) := by
    simp [String.data_append, List.append_assoc]
  rw [hsplit]
  exact @List.take_left' Char "_virt".data ((toString idx).data ++ "_".data)
    5 rfl

/-- The disambiguation tag that `inst_id_str` appends for each instance
kind (used by `Item`/`Intrinsic` only when the substitutions are
non-empty). -/
def instTag : InstanceDef → String
  | .item _ | .intrinsic _ => "_inst"
  | .vtableShim _ => "_vtshim"
  | .reifyShim _ => "_reify"
  | .virtual _ idx => "_virt" ++ toString idx ++ "_"
  | .dropGlue _ _ => "_drop"
  | .fnPtrShim _ _ | .closureOnceShim _ => "_callonce"
  | .cloneShim _ _ => "_shim"

/-- The groups of instance kinds that `inst_id_str` can actually
distinguish: `Item`/`Intrinsic` share a tag, and `FnPtrShim`/
`ClosureOnceShim` share a tag. -/
def kindGroup : InstanceDef → Nat
  | .item _ | .intrinsic _ => 0
  | .vtableShim _ => 1
  | .reifyShim _ => 2
  | .virtual _ _ => 3
  | .dropGlue _ _ => 4
  | .fnPtrShim _ _ | .closureOnceShim _ => 5
  | .cloneShim _ _ => 6

/-- Equal tags mean equal kind groups. -/
theorem instTag_eq_group {k₁ k₂ : InstanceDef} (h : instTag k₁ = instTag k₂) :
    kindGroup k₁ = kindGroup k₂ := by
  cases k₁ <;> cases k₂ <;>
    simp only [instTag] at h <;>
    first
      | rfl
      | (exact absurd h (by decide))
      | (exact absurd h (virt_tag_ne _ _ (by decide)))
      | (exact absurd h.symm (virt_tag_ne _ _ (by decide)))

/-- Characterization of a successful `inst_id_str`: either the kind is
`Item`/`Intrinsic` with empty normalized substitutions and the bare name
is used, or the name is the extended name with the kind's tag. -/
theorem inst_id_str_ok_eq {tcx : TyCtxt} {i : Instance} {n : String}
    (h : inst_id_str tcx i = .ok n) :
    (kindGroup i.idef = 0 ∧ (tcx.normalizeSubsts i.substs).length = 0 ∧
      n = def_id_str tcx (inst_def_id i)) ∨
    n = ext_def_id_str tcx (inst_def_id i) (instTag i.idef)
      (.substs (tcx.normalizeSubsts i.substs)) := by
  obtain ⟨k, s⟩ := i
  unfold inst_id_str at h
  simp only [] at h
  split at h
  · exact Except.noConfusion h
  split at h
  · exact Except.noConfusion h
  replace h := Except.ok.inj h
  subst h
  cases k with
  | item d =>
    by_cases hl : (tcx.normalizeSubsts s).length = 0
    · exact Or.inl ⟨rfl, hl, by simp [hl, inst_def_id]⟩
    · refine Or.inr ?_
      simp only [instTag, inst_def_id]
      rw [if_neg hl]
  | intrinsic d =>
    by_cases hl : (tcx.normalizeSubsts s).length = 0
    · exact Or.inl ⟨rfl, hl, by simp [hl, inst_def_id]⟩
    · refine Or.inr ?_
      simp only [instTag, inst_def_id]
      rw [if_neg hl]
  | vtableShim d => exact Or.inr rfl
  | reifyShim d => exact Or.inr rfl
  | virtual d idx => exact Or.inr rfl
  | dropGlue d ty => exact Or.inr rfl
  | fnPtrShim d ty => exact Or.inr rfl
  | closureOnceShim d => exact Or.inr rfl
  | cloneShim d ty => exact Or.inr rfl

/-! ### Bit-pattern lemmas for the constant renderer -/

/-- `-1i128 << k` as a 128-bit pattern: all ones above bit `k`. -/
theorem neg_one_shift_mod (k : Nat) (hk : k ≤ 128) :
    ((2 ^ 128 - 1) <<< k) % 2 ^ 128 = 2 ^ 128 - 2 ^ k := by
  rw [Nat.shiftLeft_eq]
  have h1 : (2:Nat) ^ k ≤ 2 ^ 128 := Nat.pow_le_pow_right (by norm_num) hk
  have h2 : (1:Nat) ≤ 2 ^ k := Nat.one_le_two_pow
  have h3 : (1:Nat) ≤ 2 ^ 128 := Nat.one_le_two_pow
  have key : (2 ^ 128 - 1) * 2 ^ k =
      2 ^ 128 * (2 ^ k - 1) + (2 ^ 128 - 2 ^ k) := by
    zify [h1, h2, h3]
    ring
  rw [key, Nat.mul_add_mod]
  exact Nat.mod_eq_of_lt (by omega)

/-- Or-ing a `k`-bit value into a pattern whose low `k` bits are zero is
addition. -/
theorem lor_high_bits {k bits : Nat} (hk : k ≤ 128) (hb : bits < 2 ^ k) :
    bits ||| (2 ^ 128 - 2 ^ k) = (2 ^ 128 - 2 ^ k) + bits := by
  have hpow : (2:Nat) ^ k * 2 ^ (128 - k) = 2 ^ 128 := by
    rw [← pow_add]
    congr 1
    omega
  have hsplit : (2:Nat) ^ 128 - 2 ^ k = 2 ^ k * (2 ^ (128 - k) - 1) := by
    rw [Nat.mul_sub_left_distrib, Nat.mul_one, hpow]
  rw [hsplit, Nat.lor_comm, ← Nat.mul_add_lt_is_or hb (2 ^ (128 - k) - 1)]

/-- Reinterpreting a pattern with all high bits set as a signed 128-bit
integer subtracts `2 ^ 128`. -/
theorem i128OfBits_high {k bits : Nat} (hk : k ≤ 120)
    (hb : bits < 2 ^ k) :
    i128OfBits ((2 ^ 128 - 2 ^ k) + bits) = (bits : Int) - 2 ^ k := by
  unfold i128OfBits
  have h120 : (2:Nat) ^ k ≤ 2 ^ 120 := Nat.pow_le_pow_right (by norm_num) hk
  have h2 : (1:Nat) ≤ 2 ^ k := Nat.one_le_two_pow
  have hle : (2:Nat) ^ k ≤ 2 ^ 128 :=
    le_trans h120 (by norm_num)
  have hlt : (2 ^ 128 - 2 ^ k) + bits < 2 ^ 128 := by omega
  rw [Nat.mod_eq_of_lt hlt]
  have hge : ¬((2 ^ 128 - 2 ^ k) + bits < 2 ^ 127) := by
    have ha : (2:Nat) ^ 120 ≤ 2 ^ 127 := by norm_num
    have hb127 : (2:Nat) ^ 127 + 2 ^ 127 = 2 ^ 128 := by norm_num
    omega
  rw [if_neg hge]
  rw [Nat.cast_add, Nat.cast_sub hle]
  push_cast
  ring

/-- A set bit makes the masked pattern non-zero. -/
theorem and_two_pow_ne_zero {bits j : Nat} (h : Nat.testBit bits j = true) :
    bits &&& 2 ^ j ≠ 0 := by
  intro h0
  have := congrArg (fun x => Nat.testBit x j) h0
  simp only [Nat.testBit_and, h, Nat.testBit_two_pow_self, Bool.and_self,
    Nat.zero_testBit] at this
  exact Bool.noConfusion this

/-! ### Concrete fixtures for witnesses and counterexamples -/

/-- A concrete oracle assembly: every definition renders under crate
`crate` with disambiguator prefix `12345678` and path `::foo`; the stable
hash is constantly zero; resolution yields the `Item` instance; the vtable
method list has holes at slots 0 and 2. -/
def tcx₀ : TyCtxt where
  crateName := fun _ => "crate"
  crateDisambiguator := fun _ => "1234567890abcdef"
  defPathStr := fun _ => "::foo"
  stableHash := fun _ => 0
  normalizeSubsts := fun s => s
  eraseRegions := fun s => s
  hasErasableRegions := fun _ => false
  needsSubst := fun _ => false
  resolve := fun d s => some ⟨.item d, s⟩
  constEvalValidated := fun _ _ => some (.scalarRaw 1 255)
  vtableMethods := fun _ => [none, some ⟨0, 1⟩, none, some ⟨0, 2⟩]
  fromDynamicPredicates := fun _ => ⟨none⟩
  f32ToString := fun _ => "0"
  f64ToString := fun _ => "0"
  getGlobalAlloc := fun _ => none

/-- The same oracles with instance resolution always failing. -/
def tcxNoResolve : TyCtxt := { tcx₀ with resolve := fun _ _ => none }

/-- The same oracles with constant evaluation always failing. -/
def tcxNoEval : TyCtxt := { tcx₀ with constEvalValidated := fun _ _ => none }

/-- A sample definition reference. -/
def d₀ : DefId := ⟨0, 0⟩

/-- The empty lowering state over `tcx₀`. -/
def ms₀ : MirState := ⟨tcx₀, ⟨[]⟩, ⟨[], [], []⟩, []⟩

/-- The empty lowering state over `tcxNoResolve`. -/
def msNoResolve : MirState := ⟨tcxNoResolve, ⟨[]⟩, ⟨[], [], []⟩, []⟩

/-- The state after interning `bool` in `ms₀`. -/
def msBool : MirState :=
  ⟨tcx₀, ⟨[(.bool, .obj [("kind", .str "Bool")])]⟩, ⟨[], [], []⟩, []⟩

/-- The state after interning `&bool` in `ms₀`. -/
def msRefBool : MirState :=
  ⟨tcx₀, ⟨[(.bool, .obj [("kind", .str "Bool")]),
    (.ref .bool .not, .obj [("kind", .str "Ref"), ("ty", .num 0),
      ("mutability", .str "Not")])]⟩, ⟨[], [], []⟩, []⟩

/-! ### The claims -/

/-- C1: interning a type is idempotent — when `Ty.toJson` succeeds from a
duplicate-free table, the type's body is stored under exactly one table
entry, the returned JSON is that entry's integer ID, and calling
`Ty.toJson` a second time returns the same ID without touching the state
(so a type already present is never re-lowered or re-stored). -/
theorem c1_interning_idempotent (t : Ty) (m m' : MirState) (j : Json)
    (hnd : NoDupKeys m.tys) (h : Ty.toJson t m = .ok (j, m')) :
    ∃ id, j = .num id ∧ m'.tys.get t = some id ∧
      m'.tys.countKey t = 1 ∧ Ty.toJson t m' = .ok (.num id, m') := by
  obtain ⟨⟨htc, hndp, new, hent, hsz⟩, id, hj, hget⟩ := Ty.toJson_tyExt t m j m' h
  refine ⟨id, hj, hget, ?_, Ty.toJson_of_get_some hget⟩
  have hnd' : NoDupKeys m'.tys := hndp hnd
  have hmem : t ∈ m'.tys.entries.map Prod.fst :=
    mem_keys_of_lookupIdx_some t m'.tys.entries 0 id hget
  exact List.count_eq_one_of_mem hnd' hmem

/-- Witness for C1 at a concrete input: lowering `bool` from the empty
state interns it once; re-lowering returns the same ID `0` and leaves the
state unchanged. -/
theorem c1_witness :
    Ty.toJson .bool msBool = .ok (.num 0, msBool) ∧
    msBool.tys.countKey .bool = 1 := by
  obtain ⟨id, hj, hget, hcount, hsecond⟩ :=
    c1_interning_idempotent .bool ms₀ msBool (.num 0)
      (by simp [NoDupKeys, ms₀]) (by rfl)
  injection hj with hid
  subst hid
  exact ⟨hsecond, hcount⟩

/-- C8 (amended): when the interner lowers a not-yet-interned reference or
raw-pointer type, the pointee is lowered first by a nested call, and only
afterwards is the reference/pointer type inserted, its ID being the table
length after the pointee lowering — the ID is assigned after the recursion
into the pointee, not before it. -/
theorem c8_ref_id_assigned_after_pointee (t : Ty) (mu : Mutability)
    (m : MirState) :
    (∀ j m', m.tys.get (.ref t mu) = none →
      Ty.toJson (.ref t mu) m = .ok (j, m') →
      ∃ jt m₂, Ty.toJson t m = .ok (jt, m₂) ∧
        j = .num m₂.tys.entries.length ∧
        m'.tys.entries = m₂.tys.entries ++
          [(.ref t mu, .obj [("kind", .str "Ref"), ("ty", jt),
            ("mutability", .str mu.name)])]) ∧
    (∀ j m', m.tys.get (.rawPtr t mu) = none →
      Ty.toJson (.rawPtr t mu) m = .ok (j, m') →
      ∃ jt m₂, Ty.toJson t m = .ok (jt, m₂) ∧
        j = .num m₂.tys.entries.length ∧
        m'.tys.entries = m₂.tys.entries ++
          [(.rawPtr t mu, .obj [("kind", .str "RawPtr"), ("ty", jt),
            ("mutability", .str mu.name)])]) := by
  constructor
  · intro j m' hg h
    rw [Ty.toJson, hg] at h
    cases hrec : Ty.toJson t m with
    | error e =>
      rw [hrec] at h
      exact Except.noConfusion h
    | ok r =>
      obtain ⟨jt, m₂⟩ := r
      rw [hrec] at h
      simp only [TyIntern.insert] at h
      replace h := Except.ok.inj h
      rw [Prod.mk.injEq] at h
      obtain ⟨hj, hm⟩ := h
      exact ⟨jt, m₂, rfl, hj.symm, by rw [← hm]⟩
  · intro j m' hg h
    rw [Ty.toJson, hg] at h
    cases hrec : Ty.toJson t m with
    | error e =>
      rw [hrec] at h
      exact Except.noConfusion h
    | ok r =>
      obtain ⟨jt, m₂⟩ := r
      rw [hrec] at h
      simp only [TyIntern.insert] at h
      replace h := Except.ok.inj h
      rw [Prod.mk.injEq] at h
      obtain ⟨hj, hm⟩ := h
      exact ⟨jt, m₂, rfl, hj.symm, by rw [← hm]⟩

/-- Witness for C8 at a concrete input: lowering `&bool` from the empty
state lowers the pointee (ID 0) first and then appends the reference
entry. -/
theorem c8_witness :
    msRefBool.tys.entries = msBool.tys.entries ++
      [(.ref .bool .not, .obj [("kind", .str "Ref"), ("ty", .num 0),
        ("mutability", .str "Not")])] := by
  obtain ⟨jt, m₂, h1, h2, h3⟩ :=
    (c8_ref_id_assigned_after_pointee .bool .not ms₀).1 (.num 1) msRefBool
      rfl rfl
  have hkn : (Except.ok (jt, m₂) : Except Panic (Json × MirState)) =
      .ok (.num 0, msBool) := by
    rw [← h1]
    rfl
  replace hkn := Except.ok.inj hkn
  rw [Prod.mk.injEq] at hkn
  obtain ⟨hj, hm⟩ := hkn
  rw [hm] at h3
  rw [hj] at h3
  exact h3

/-- C8 counterexample: the claim says the reference type's own ID is
committed before recursing into the pointee; interning `&bool` in the
empty state in fact assigns ID 0 to the pointee `bool` and only ID 1 to
`&bool`, so the reference's ID is assigned after (not before) the pointee
is lowered and stored. -/
theorem c8_counterexample :
    Ty.toJson (.ref .bool .not) ms₀ = .ok (.num 1, msRefBool) ∧
    msRefBool.tys.get (.ref .bool .not) = some 1 ∧
    msRefBool.tys.get .bool = some 0 :=
  ⟨rfl, rfl, rfl⟩

/-- C9: resolving one zero-substitution definition twice — once directly
via `get_fn_def_name` (a direct call target) and once through lowering the
`FnDef` type (a function pointer) — produces the same mangled name both
times and inserts exactly one entry into the reachable-instances set. -/
theorem c9_fn_def_lowered_once (ms : MirState) (d : DefId) (inst : Instance)
    (n : String)
    (hres : ms.tcx.resolve d .nil = some inst)
    (hname : inst_id_str ms.tcx inst = .ok n)
    (hfresh : ms.tys.get (.fnDef d .nil) = none)
    (hnotin : inst ∉ ms.used.instances) :
    ∃ ms₁ ms₂,
      get_fn_def_name ms d .nil = .ok (n, ms₁) ∧
      ms₁.used.instances = inst :: ms.used.instances ∧
      Ty.toJson (.fnDef d .nil) ms₁ =
        .ok (.num ms₁.tys.entries.length, ms₂) ∧
      ms₂.tys.entries = ms₁.tys.entries ++
        [(.fnDef d .nil, .obj [("kind", .str "FnDef"), ("defid", .str n),
          ("substs", .arr [])])] ∧
      ms₂.used.instances = ms₁.used.instances ∧
      List.count inst ms₂.used.instances = 1 := by
  refine ⟨{ ms with used := { ms.used with
      instances := inst :: ms.used.instances } },
    { ms with
      used := { ms.used with instances := inst :: ms.used.instances },
      tys := ⟨ms.tys.entries ++ [(.fnDef d .nil,
        .obj [("kind", .str "FnDef"), ("defid", .str n),
          ("substs", .arr [])])]⟩ },
    ?_, rfl, ?_, rfl, rfl, ?_⟩
  · unfold get_fn_def_name
    simp only []
    rw [hres]
    simp only []
    rw [hname]
    simp only [insertOnce]
    rw [if_neg hnotin]
  · have hfn1 : get_fn_def_name
        { ms with used := { ms.used with
          instances := inst :: ms.used.instances } } d .nil =
        .ok (n, { ms with used := { ms.used with
          instances := inst :: ms.used.instances } }) := by
      unfold get_fn_def_name
      simp only []
      rw [show (ms.tcx.resolve d .nil : Option Instance) = some inst
        from hres]
      simp only []
      rw [show inst_id_str ms.tcx inst = .ok n from hname]
      simp only [insertOnce]
      rw [if_pos (List.mem_cons_self inst ms.used.instances)]
    rw [Ty.toJson]
    rw [show ({ ms with used := { ms.used with
        instances := inst :: ms.used.instances } } : MirState).tys.get
        (.fnDef d .nil) = none from hfresh]
    simp only []
    rw [hfn1]
    rfl
  · show List.count inst (inst :: ms.used.instances) = 1
    rw [List.count_cons_self]
    rw [List.count_eq_zero.mpr hnotin]

/-- Witness for C9 at a concrete input: the zero-substitution definition
`d₀` resolves to its `Item` instance, both lowerings name it
`crate/12345678::foo`, and the reachable-instances set ends with exactly
one entry. -/
theorem c9_witness :
    get_fn_def_name ms₀ d₀ .nil =
      .ok ("crate/12345678::foo",
        ⟨tcx₀, ⟨[]⟩, ⟨[⟨.item d₀, .nil⟩], [], []⟩, []⟩) ∧
    List.count (⟨.item d₀, .nil⟩ : Instance) [(⟨.item d₀, .nil⟩ : Instance)]
      = 1 := by
  obtain ⟨ms₁, ms₂, h1, h2, h3, h4, h5, h6⟩ :=
    c9_fn_def_lowered_once ms₀ d₀ ⟨.item d₀, .nil⟩ "crate/12345678::foo"
      rfl rfl rfl (by simp [ms₀])
  constructor
  · rfl
  · rw [h5, h2] at h6
    exact h6

/-- C2 (amended): instances with the same underlying definition and equal
normalized substitutions get distinct names from `inst_id_str` whenever
their kinds lie in distinct tag groups — but `Item`/`Intrinsic` share one
group and `FnPtrShim`/`ClosureOnceShim` share another, so only the seven
groups (not all nine kinds) are distinguishable. -/
theorem c2_distinct_kind_groups_distinct_names (tcx : TyCtxt)
    (i₁ i₂ : Instance) (n₁ n₂ : String)
    (hdef : inst_def_id i₁ = inst_def_id i₂)
    (hsub : tcx.normalizeSubsts i₁.substs = tcx.normalizeSubsts i₂.substs)
    (hgrp : kindGroup i₁.idef ≠ kindGroup i₂.idef)
    (h₁ : inst_id_str tcx i₁ = .ok n₁)
    (h₂ : inst_id_str tcx i₂ = .ok n₂) :
    n₁ ≠ n₂ := by
  intro heq
  rcases inst_id_str_ok_eq h₁ with ⟨g1, l1, e1⟩ | e1 <;>
    rcases inst_id_str_ok_eq h₂ with ⟨g2, l2, e2⟩ | e2
  · exact hgrp (g1.trans g2.symm)
  · rw [e1, e2, hdef] at heq
    exact def_id_str_ne_ext tcx (inst_def_id i₂) _ _ heq
  · rw [e1, e2, hdef] at heq
    exact def_id_str_ne_ext tcx (inst_def_id i₂) _ _ heq.symm
  · rw [e1, e2, hdef, hsub] at heq
    exact hgrp (instTag_eq_group (ext_def_id_str_tag_inj heq))

/-- C2 counterexample: the claim says every pair of distinct kinds gets
distinct names, but an `Item` instance and an `Intrinsic` instance of the
same definition with the same (non-empty) substitutions receive exactly
the same mangled name, because both kinds use the `_inst` tag. -/
theorem c2_counterexample :
    inst_id_str tcx₀ ⟨.item d₀, .cons .lifetime .nil⟩ =
      .ok "crate/12345678::foo::_inst0000000000000000[0]" ∧
    inst_id_str tcx₀ ⟨.intrinsic d₀, .cons .lifetime .nil⟩ =
      .ok "crate/12345678::foo::_inst0000000000000000[0]" :=
  ⟨rfl, rfl⟩

/-- Witness for C2 at a concrete input: an `Item` and a `VtableShim`
instance of the same definition and substitutions get distinct names. -/
theorem c2_witness :
    ("crate/12345678::foo::_inst0000000000000000[0]" : String) ≠
      "crate/12345678::foo::_vtshim0000000000000000[0]" :=
  c2_distinct_kind_groups_distinct_names tcx₀
    ⟨.item d₀, .cons .lifetime .nil⟩ ⟨.vtableShim d₀, .cons .lifetime .nil⟩
    _ _ rfl rfl (by decide) rfl rfl

/-- C3 (amended): only `Item` and `Intrinsic` instances with an empty
normalized substitution list reuse the bare definition name; every shim
kind appends its tagged hash suffix even with empty substitutions. -/
theorem c3_empty_substs_bare_name (tcx : TyCtxt) (i : Instance) (d : DefId)
    (hk : i.idef = .item d ∨ i.idef = .intrinsic d)
    (hlen : (tcx.normalizeSubsts i.substs).length = 0)
    (hE : tcx.hasErasableRegions (tcx.normalizeSubsts i.substs) = false)
    (hN : tcx.needsSubst (tcx.normalizeSubsts i.substs) = false) :
    inst_id_str tcx i = .ok (def_id_str tcx d) := by
  obtain ⟨k, s⟩ := i
  have hE' : tcx.hasErasableRegions (tcx.normalizeSubsts s) = false := hE
  have hN' : tcx.needsSubst (tcx.normalizeSubsts s) = false := hN
  have hlen' : (tcx.normalizeSubsts s).length = 0 := hlen
  rcases hk with hk | hk
  · have hk' : k = .item d := hk
    subst hk'
    unfold inst_id_str
    simp [hE', hN', hlen']
  · have hk' : k = .intrinsic d := hk
    subst hk'
    unfold inst_id_str
    simp [hE', hN', hlen']

/-- Witness for C3 at a concrete input: a zero-substitution `Item`
instance is named by the bare definition name. -/
theorem c3_witness :
    inst_id_str tcx₀ ⟨.item d₀, .nil⟩ = .ok "crate/12345678::foo" :=
  c3_empty_substs_bare_name tcx₀ ⟨.item d₀, .nil⟩ d₀ (Or.inl rfl) rfl rfl rfl

/-- C3 counterexample: the claim says the bare name is reused regardless
of the instance's kind, but a `VtableShim` instance with empty
substitutions still gets the `_vtshim`-tagged hash suffix, which differs
from the bare name. -/
theorem c3_counterexample :
    inst_id_str tcx₀ ⟨.vtableShim d₀, .nil⟩ =
      .ok "crate/12345678::foo::_vtshim0000000000000000[0]" ∧
    def_id_str tcx₀ d₀ = "crate/12345678::foo" ∧
    ("crate/12345678::foo::_vtshim0000000000000000[0]" : String) ≠
      "crate/12345678::foo" :=
  ⟨rfl, rfl, by decide⟩

/-- Counting the present methods in a prefix equals counting the
non-excluded slot indices strictly before the cut-off. -/
theorem countP_take_eq_range {α : Type} (p : α → Bool) (d : α)
    (hd : p d = false) :
    ∀ (k : Nat) (l : List α),
      (l.take k).countP p =
        (List.range k).countP (fun i => p (l.getD i d)) := by
  intro k
  induction k with
  | zero =>
    intro l
    simp
  | succ k ih =>
    intro l
    cases l with
    | nil =>
      rw [List.take_nil, List.countP_nil, eq_comm, List.countP_eq_zero]
      intro a _
      simp [List.getD, hd]
    | cons x xs =>
      rw [List.range_succ_eq_map, List.take_succ_cons, List.countP_cons,
        List.countP_cons, List.countP_map]
      simp only [List.getD_cons_zero, Function.comp_def, List.getD_cons_succ]
      rw [ih xs]

/-- C4: for a trait-object self type with a principal trait,
`adjust_method_index` maps a raw vtable slot to the number of present
(`some`) methods among the slots strictly before it in the trait's ordered
method list. -/
theorem c4_adjust_method_index (tcx : TyCtxt) (preds : ExPreds)
    (tr : TraitRefData) (raw_idx : Nat)
    (hp : preds.principal = some tr) :
    adjust_method_index tcx (.dynamic preds) raw_idx =
      .ok ((List.range raw_idx).countP (fun i =>
        ((tcx.vtableMethods (tr.withSelfTy (.dynamic preds))).getD i
          none).isSome)) := by
  unfold adjust_method_index
  simp only []
  rw [hp]
  simp only []
  rw [countP_take_eq_range (fun m => m.isSome) none rfl]

/-- Witness for C4 at the spec's example: method list
`[A(excluded), B, C(excluded), D]` (holes at slots 0 and 2); raw slot 3
normalizes to 1. -/
theorem c4_witness :
    adjust_method_index tcx₀ (.dynamic (.cons (.trait d₀ .nil) .nil)) 3 =
      .ok 1 := by
  rw [c4_adjust_method_index tcx₀ (.cons (.trait d₀ .nil) .nil) ⟨d₀, .nil⟩ 3
    rfl]
  rfl

/-- C5: a signed integer constant of byte size `s < 16` whose raw pattern
has the sign bit set renders as the decimal string of the value
sign-extended to 128-bit signed (so `0xFF` at size 1 renders as `-1`); an
unsigned integer constant renders its raw bits as an unsigned decimal
string. -/
theorem c5_integer_rendering (mir : MirState) (it : IntTy) (ut : UintTy)
    (sl : Option (Allocation × Nat × Nat)) (s bits : Nat)
    (hs : 0 < s) (hs16 : s < 16) (hbits : bits < 2 ^ (s * 8)) :
    (Nat.testBit bits (s * 8 - 1) = true →
      render_constant mir (.int it) (some (s, bits)) sl =
        .ok (some (.obj [
          ("kind", .str (match it with | .isize => "isize" | _ => "int")),
          ("size", .num s),
          ("val", .str (toString ((bits : Int) - 2 ^ (s * 8))))]), mir)) ∧
    render_constant mir (.uint ut) (some (s, bits)) sl =
      .ok (some (.obj [
        ("kind", .str (match ut with | .usize => "usize" | _ => "uint")),
        ("size", .num s),
        ("val", .str (toString bits))]), mir) := by
  have hle128 : (2:Nat) ^ (s * 8) ≤ 2 ^ 128 :=
    Nat.pow_le_pow_right (by norm_num) (by omega)
  have hmod : bits % 2 ^ 128 = bits :=
    Nat.mod_eq_of_lt (lt_of_lt_of_le hbits hle128)
  constructor
  · intro hbit
    unfold render_constant
    simp only []
    rw [hmod]
    have hc : bits &&& 1 <<< (s * 8 - 1) ≠ 0 ∧ s < 128 / 8 := by
      constructor
      · rw [Nat.one_shiftLeft]
        exact and_two_pow_ne_zero hbit
      · omega
    rw [if_pos hc]
    rw [neg_one_shift_mod (s * 8) (by omega),
      lor_high_bits (by omega) hbits,
      i128OfBits_high (by omega) hbits]
  · unfold render_constant
    simp only []
    rw [hmod]
    cases ut <;> rfl

/-- Witness for C5 at the spec's example: raw bits `0xFF` at size 1 render
as `-1` on a signed type and as `255` on an unsigned one. -/
theorem c5_witness :
    render_constant ms₀ (.int .i8) (some (1, 255)) none =
      .ok (some (.obj [("kind", .str "int"), ("size", .num 1),
        ("val", .str "-1")]), ms₀) ∧
    render_constant ms₀ (.uint .u8) (some (1, 255)) none =
      .ok (some (.obj [("kind", .str "uint"), ("size", .num 1),
        ("val", .str "255")]), ms₀) := by
  obtain ⟨hsigned, hunsigned⟩ :=
    c5_integer_rendering ms₀ .i8 .u8 none 1 255 (by decide) (by decide)
      (by decide)
  constructor
  · rw [hsigned (by decide)]
    rfl
  · rw [hunsigned]
    rfl

/-- C6: when instance resolution fails, `get_fn_def_name` emits one
diagnostic, leaves the reachable sets and the interning table untouched,
does not abort, and returns the bare definition name; and it returns a
name on the success path as well. -/
theorem c6_resolution_failure_nonfatal (mir : MirState) (defid : DefId)
    (substs : Substs) :
    (mir.tcx.resolve defid substs = none →
      get_fn_def_name mir defid substs =
        .ok (def_id_str mir.tcx defid,
          { mir with diags := mir.diags ++
            ["error: failed to resolve FnDef Instance: " ++
              mir.tcx.defPathStr defid] })) ∧
    (∀ inst n, mir.tcx.resolve defid substs = some inst →
      inst_id_str mir.tcx inst = .ok n →
      get_fn_def_name mir defid substs =
        .ok (n, { mir with used := { mir.used with
          instances := insertOnce inst mir.used.instances } })) := by
  constructor
  · intro hres
    unfold get_fn_def_name
    simp only []
    rw [hres]
  · intro inst n hres hname
    unfold get_fn_def_name
    simp only []
    rw [hres]
    simp only []
    rw [hname]

/-- Witness for C6 at a concrete input: with an always-failing resolver,
lowering still returns the bare name and appends one diagnostic. -/
theorem c6_witness :
    get_fn_def_name msNoResolve d₀ .nil =
      .ok ("crate/12345678::foo",
        ⟨tcxNoResolve, ⟨[]⟩, ⟨[], [], []⟩,
          ["error: failed to resolve FnDef Instance: ::foo"]⟩) :=
  (c6_resolution_failure_nonfatal msNoResolve d₀ .nil).1 rfl

/-- C7 (amended): a resolution failure at `get_fn_def_name` is caught and
converted to a diagnostic plus a fallback name, but a failure of instance
resolution or of the constant-evaluation oracle inside `do_const_eval`
propagates as a panic (`unwrap`) that aborts the pass. -/
theorem c7_const_eval_failures_abort (tcx : TyCtxt) (d : DefId) (s : Substs)
    (p : Option Nat) :
    (tcx.resolve d s = none →
      do_const_eval tcx d s p =
        .error "panic: called Option::unwrap on a None value") ∧
    (∀ inst, tcx.resolve d s = some inst →
      tcx.constEvalValidated inst p = none →
      do_const_eval tcx d s p =
        .error "panic: called Result::unwrap on an Err value") ∧
    (∀ mir : MirState, mir.tcx = tcx → tcx.resolve d s = none →
      get_fn_def_name mir d s =
        .ok (def_id_str tcx d,
          { mir with diags := mir.diags ++
            ["error: failed to resolve FnDef Instance: " ++
              tcx.defPathStr d] })) := by
  refine ⟨?_, ?_, ?_⟩
  · intro h
    unfold do_const_eval
    rw [h]
  · intro inst h1 h2
    unfold do_const_eval
    rw [h1]
    simp only []
    rw [h2]
  · intro mir htcx h
    subst htcx
    unfold get_fn_def_name
    simp only []
    rw [h]

/-- C7 counterexample: the claim says a failure of instance resolution
during constant evaluation never propagates as an unstructured abort, but
with an always-failing resolver `do_const_eval` panics via `unwrap`. -/
theorem c7_counterexample :
    do_const_eval tcxNoResolve d₀ .nil none =
      .error "panic: called Option::unwrap on a None value" := rfl

/-- Witness for C7 at concrete inputs: both `unwrap` panic paths of
`do_const_eval` fire. -/
theorem c7_witness :
    do_const_eval tcxNoResolve d₀ (.cons .lifetime .nil) none =
      .error "panic: called Option::unwrap on a None value" ∧
    do_const_eval tcxNoEval d₀ .nil none =
      .error "panic: called Result::unwrap on an Err value" :=
  ⟨(c7_const_eval_failures_abort tcxNoResolve d₀ (.cons .lifetime .nil)
      none).1 rfl,
    (c7_const_eval_failures_abort tcxNoEval d₀ .nil none).2.1
      ⟨.item d₀, .nil⟩ rfl rfl⟩

/-- C10: `read_static_memory` asserts that the backing allocation carries
no pointer relocations at all, so rendering a string literal aborts
whenever any relocation exists — even relocations lying entirely outside
the requested byte range. -/
theorem c10_relocation_check_covers_whole_allocation (mir : MirState)
    (alloc : Allocation) (start stop : Nat)
    (hne : alloc.relocations ≠ [])
    (houtside : ∀ r ∈ alloc.relocations, r < start ∨ stop ≤ r) :
    read_static_memory alloc start stop =
      .error "assertion failed: alloc.relocations().len() == 0" ∧
    render_constant mir (.ref .str .not) none (some (alloc, start, stop)) =
      .error "assertion failed: alloc.relocations().len() == 0" := by
  have hlen : ¬alloc.relocations.length = 0 := fun h0 =>
    hne (List.length_eq_zero.mp h0)
  have h1 : read_static_memory alloc start stop =
      .error "assertion failed: alloc.relocations().len() == 0" := by
    unfold read_static_memory
    rw [if_neg hlen]
  refine ⟨h1, ?_⟩
  unfold render_constant
  simp only []
  rw [h1]

/-- Witness for C10 at a concrete input: a two-byte allocation with one
relocation at offset 0 aborts the rendering of bytes `[1, 2)` even though
the relocation lies outside that range. -/
theorem c10_witness :
    read_static_memory ⟨[104, 105], [0]⟩ 1 2 =
      .error "assertion failed: alloc.relocations().len() == 0" ∧
    render_constant ms₀ (.ref .str .not) none
        (some (⟨[104, 105], [0]⟩, 1, 2)) =
      .error "assertion failed: alloc.relocations().len() == 0" :=
  c10_relocation_check_covers_whole_allocation ms₀ ⟨[104, 105], [0]⟩ 1 2
    (by decide) (by decide)
